import Mathlib

set_option linter.unusedVariables false

/-!
Verification of the `bayesian_forecasting` repository: a Bayesian Dynamic
Linear Model (DLM) Forward-Filter / Backward-Smoother / Backward-Sampler
(FFBS) engine with discount-factor regimes, incremental append, and a
discount grid search, plus construction helpers from `utilities.py`.

Rational arithmetic (`ℚ`) embeds the exact linear algebra of the source;
log-likelihood values, which involve `log`, `π` and `Γ`, live in `ℝ`.
-/

open BigOperators Finset

namespace BF

/-! ## Construction helpers from `utilities.py` (source under `src/`) -/

/-- `utilities.permutation_matrix(order)`: starts from `np.zeros([order, order])`,
sets `matrix[-1, 0] = 1`, then writes `np.identity(order - 1)` into the block
`matrix[0:order-1, 1:]`.  The block write happens last, so the block condition
is tested first; `np.identity(order-1)[i, j-1]` is `1` exactly when `j = i + 1`. -/
def permutation_matrix (order : ℕ) : ℕ → ℕ → ℚ := fun i j =>
  if i < order - 1 ∧ 1 ≤ j ∧ j < order then (if j = i + 1 then 1 else 0)
  else if i = order - 1 ∧ j = 0 then 1
  else 0

/-- Entry characterization of `permutation_matrix` on the index square. -/
theorem permutation_matrix_eq_one_iff (order i j : ℕ) (hi : i < order) (hj : j < order) :
    permutation_matrix order i j = 1 ↔
      (i < order - 1 ∧ j = i + 1) ∨ (i = order - 1 ∧ j = 0) := by
  unfold permutation_matrix
  split_ifs with h1 h2 h3
  · exact ⟨fun _ => Or.inl ⟨h1.1, h2⟩, fun _ => rfl⟩
  · constructor
    · intro h; exact absurd h (by norm_num)
    · rintro (⟨_, hji⟩ | ⟨hio, _⟩)
      · exact absurd hji h2
      · omega
  · exact ⟨fun _ => Or.inr h3, fun _ => rfl⟩
  · constructor
    · intro h; exact absurd h (by norm_num)
    · rintro (⟨hlt, hji⟩ | hcorner)
      · exact absurd ⟨hlt, by omega, by omega⟩ h1
      · exact absurd hcorner h3

/-- C8: `permutation_matrix(order)` is the `order × order` cyclic permutation
matrix: entry `[order-1, 0]` is `1`, entry `[i, i+1]` is `1` for `i < order-1`,
all other entries vanish, and every row and every column holds exactly one `1`. -/
theorem c8_permutation_matrix_cyclic (order : ℕ) (h : 1 ≤ order) :
    permutation_matrix order (order - 1) 0 = 1 ∧
    (∀ i, i < order - 1 → permutation_matrix order i (i + 1) = 1) ∧
    (∀ i j, i < order → j < order → ¬(i = order - 1 ∧ j = 0) →
      ¬(i < order - 1 ∧ j = i + 1) → permutation_matrix order i j = 0) ∧
    (∀ i, i < order →
      ((Finset.range order).filter (fun j => permutation_matrix order i j = 1)).card = 1) ∧
    (∀ j, j < order →
      ((Finset.range order).filter (fun i => permutation_matrix order i j = 1)).card = 1) := by
  refine ⟨?_, ?_, ?_, ?_, ?_⟩
  · exact (permutation_matrix_eq_one_iff order (order - 1) 0 (by omega) (by omega)).mpr
      (Or.inr ⟨rfl, rfl⟩)
  · intro i hi
    exact (permutation_matrix_eq_one_iff order i (i + 1) (by omega) (by omega)).mpr
      (Or.inl ⟨hi, rfl⟩)
  · intro i j hi hj hcorner hshift
    by_contra hne
    have hval : permutation_matrix order i j = 1 := by
      unfold permutation_matrix at hne ⊢
      split_ifs at hne ⊢ with h1 h2
      · rfl
      · exact absurd rfl hne
      · exact absurd rfl hne
    rcases (permutation_matrix_eq_one_iff order i j hi hj).mp hval with h' | h'
    · exact hshift ⟨h'.1, h'.2⟩
    · exact hcorner h'
  · intro i hi
    by_cases hlt : i < order - 1
    · have : (Finset.range order).filter (fun j => permutation_matrix order i j = 1)
          = {i + 1} := by
        ext j
        simp only [Finset.mem_filter, Finset.mem_range, Finset.mem_singleton]
        constructor
        · rintro ⟨hj, hv⟩
          rcases (permutation_matrix_eq_one_iff order i j hi hj).mp hv with h' | h'
          · exact h'.2
          · omega
        · intro hj; subst hj
          exact ⟨by omega, (permutation_matrix_eq_one_iff order i (i + 1) hi (by omega)).mpr
            (Or.inl ⟨hlt, rfl⟩)⟩
      rw [this, Finset.card_singleton]
    · have hio : i = order - 1 := by omega
      have : (Finset.range order).filter (fun j => permutation_matrix order i j = 1)
          = {0} := by
        ext j
        simp only [Finset.mem_filter, Finset.mem_range, Finset.mem_singleton]
        constructor
        · rintro ⟨hj, hv⟩
          rcases (permutation_matrix_eq_one_iff order i j hi hj).mp hv with h' | h'
          · omega
          · exact h'.2
        · intro hj; subst hj
          exact ⟨by omega, (permutation_matrix_eq_one_iff order i 0 hi (by omega)).mpr
            (Or.inr ⟨hio, rfl⟩)⟩
      rw [this, Finset.card_singleton]
  · intro j hj
    by_cases hz : j = 0
    · subst hz
      have : (Finset.range order).filter (fun i => permutation_matrix order i 0 = 1)
          = {order - 1} := by
        ext i
        simp only [Finset.mem_filter, Finset.mem_range, Finset.mem_singleton]
        constructor
        · rintro ⟨hi, hv⟩
          rcases (permutation_matrix_eq_one_iff order i 0 hi hj).mp hv with h' | h'
          · omega
          · exact h'.1
        · intro hi; subst hi
          exact ⟨by omega, (permutation_matrix_eq_one_iff order (order - 1) 0 (by omega) hj).mpr
            (Or.inr ⟨rfl, rfl⟩)⟩
      rw [this, Finset.card_singleton]
    · have : (Finset.range order).filter (fun i => permutation_matrix order i j = 1)
          = {j - 1} := by
        ext i
        simp only [Finset.mem_filter, Finset.mem_range, Finset.mem_singleton]
        constructor
        · rintro ⟨hi, hv⟩
          rcases (permutation_matrix_eq_one_iff order i j hi hj).mp hv with h' | h'
          · omega
          · omega
        · intro hi; subst hi
          refine ⟨by omega, (permutation_matrix_eq_one_iff order (j - 1) j (by omega) hj).mpr
            (Or.inl ⟨by omega, by omega⟩)⟩
      rw [this, Finset.card_singleton]

/-- Witness for C8 at `order = 3`. -/
theorem c8_witness :
    1 ≤ 3 ∧
    (permutation_matrix 3 (3 - 1) 0 = 1 ∧
    (∀ i, i < 3 - 1 → permutation_matrix 3 i (i + 1) = 1) ∧
    (∀ i j, i < 3 → j < 3 → ¬(i = 3 - 1 ∧ j = 0) →
      ¬(i < 3 - 1 ∧ j = i + 1) → permutation_matrix 3 i j = 0) ∧
    (∀ i, i < 3 →
      ((Finset.range 3).filter (fun j => permutation_matrix 3 i j = 1)).card = 1) ∧
    (∀ j, j < 3 →
      ((Finset.range 3).filter (fun i => permutation_matrix 3 i j = 1)).card = 1)) :=
  ⟨by norm_num, c8_permutation_matrix_cyclic 3 (by norm_num)⟩

/-- `np.roll(y, k, axis=0)` on a length-`T` sequence: entry `t` of the rolled
sequence is entry `(t - k) mod T` of `y` (Python's modulo is nonnegative for
a positive modulus, matching `Int.emod`). -/
def np_roll (y : ℕ → ℚ) (T : ℕ) (k : ℤ) : ℕ → ℚ := fun t =>
  y (((t : ℤ) - k) % (T : ℤ)).toNat

/-- `utilities.data_matrix_arp_stack(y, p)` for a `(T, 1)` column series `y`:
`F[:, i] = np.roll(y, i+1, axis=0)[:, 0]` and the function returns `F[p:, :]`,
so entry `(r, i)` of the returned `(T-p, p)` matrix is `roll(y, i+1)[p+r]`. -/
def data_matrix_arp_stack (y : ℕ → ℚ) (T p : ℕ) : ℕ → ℕ → ℚ := fun r i =>
  np_roll y T ((i : ℤ) + 1) (p + r)

/-- `scipy.linalg.circulant(y).T` after scipy ravels the `(T, 1)` input to
length `T`: `circulant(c)[i, j] = c[(i - j) mod T]`, so the transpose has
entry `(i, j) ↦ c[(j - i) mod T]`. -/
def circulant_transpose (y : ℕ → ℚ) (T : ℕ) : ℕ → ℕ → ℚ := fun i j =>
  y (((j : ℤ) - (i : ℤ)) % (T : ℤ)).toNat

/-- `utilities.data_matrix_arp_circulant(y, p)`: returns
`circulant(y).T[0:p, p-1:-1].T`, whose entry `(r, i)` for `r < T-p`, `i < p`
is `circulant(y).T[i, (p-1) + r]`. -/
def data_matrix_arp_circulant (y : ℕ → ℚ) (T p : ℕ) : ℕ → ℕ → ℚ := fun r i =>
  circulant_transpose y T i (p - 1 + r)

/-- C9: on every valid index `(r, i)` of the `(T-p, p)` result, the stacked and
the circulant lagged design matrices agree, and their common row for time
`t = p + r` is `[y[t-1], y[t-2], ..., y[t-p]]`, i.e. entry `i` is `y[t-1-i]`. -/
theorem c9_arp_design_matrices_agree (y : ℕ → ℚ) (T p r i : ℕ)
    (hp : 1 ≤ p) (hpT : p < T) (hr : r < T - p) (hi : i < p) :
    data_matrix_arp_stack y T p r i = data_matrix_arp_circulant y T p r i ∧
    data_matrix_arp_stack y T p r i = y (p + r - (i + 1)) := by
  unfold data_matrix_arp_stack data_matrix_arp_circulant np_roll circulant_transpose
  have hidx : ((p - 1 + r : ℕ) : ℤ) - (i : ℤ) = ((p + r : ℕ) : ℤ) - ((i : ℤ) + 1) := by
    omega
  have h0 : (0 : ℤ) ≤ ((p + r : ℕ) : ℤ) - ((i : ℤ) + 1) := by omega
  have hT : ((p + r : ℕ) : ℤ) - ((i : ℤ) + 1) < (T : ℤ) := by omega
  rw [hidx, Int.emod_eq_of_lt h0 hT]
  have htn : (((p + r : ℕ) : ℤ) - ((i : ℤ) + 1)).toNat = p + r - (i + 1) := by omega
  rw [htn]
  exact ⟨rfl, rfl⟩

/-- Witness for C9 at `y = id`, `T = 5`, `p = 2`, `r = 1`, `i = 1`. -/
theorem c9_witness :
    (1 ≤ 2 ∧ 2 < 5 ∧ 1 < 5 - 2 ∧ 1 < 2) ∧
    (data_matrix_arp_stack (fun t => (t : ℚ)) 5 2 1 1
        = data_matrix_arp_circulant (fun t => (t : ℚ)) 5 2 1 1 ∧
      data_matrix_arp_stack (fun t => (t : ℚ)) 5 2 1 1 = ((2 + 1 - (1 + 1) : ℕ) : ℚ)) :=
  ⟨by norm_num,
    c9_arp_design_matrices_agree (fun t => (t : ℚ)) 5 2 1 1
      (by norm_num) (by norm_num) (by norm_num) (by norm_num)⟩

/-- `G.dot(x)` for an `n × n` matrix and length-`n` vector, as numpy computes it. -/
def matVec (G : ℕ → ℕ → ℚ) (n : ℕ) (x : ℕ → ℚ) : ℕ → ℚ := fun i =>
  ∑ j ∈ Finset.range n, G i j * x j

/-- `F.dot(x) + noise`: a scalar emission of `utilities.univariate_dlm_simulation`. -/
def dlm_emission (F : ℕ → ℚ) (n : ℕ) (x : ℕ → ℚ) (noise : ℚ) : ℚ :=
  (∑ j ∈ Finset.range n, F j * x j) + noise

/-- The state buffer of `utilities.univariate_dlm_simulation` before its loop:
`state = np.zeros([T, n]); state[0] = initial_state`. -/
def dlm_state0 (init : ℕ → ℚ) : ℕ → ℕ → ℚ := fun idx =>
  if idx = 0 then init else fun _ => 0

/-- The state buffer of `utilities.univariate_dlm_simulation` after the first
`t` iterations of `for t in range(T): state[t] = G.dot(state[t-1]) + w[t]`,
where `w t` is the multivariate-normal draw consumed at iteration `t` of the
fixed random stream, and Python's `state[t-1]` reads index `(t + T - 1) % T`
(negative indexing wraps to the last row at `t = 0`). -/
def dlm_state (G : ℕ → ℕ → ℚ) (n T : ℕ) (w : ℕ → ℕ → ℚ) (init : ℕ → ℚ) :
    ℕ → ℕ → ℕ → ℚ
  | 0 => dlm_state0 init
  | t + 1 =>
    let buf := dlm_state G n T w init t
    Function.update buf t (fun i => matVec G n (buf ((t + T - 1) % T)) i + w t i)

/-- The buffer before the loop, as an equation for rewriting. -/
theorem dlm_state_zero (G : ℕ → ℕ → ℚ) (n T : ℕ) (w : ℕ → ℕ → ℚ) (init : ℕ → ℚ) :
    dlm_state G n T w init 0 = dlm_state0 init := rfl

/-- After one loop iteration the buffer no longer depends on `initial_state`:
iteration `0` reads the still-zero row `T - 1` and overwrites row `0`. -/
theorem dlm_state_one_eq (G : ℕ → ℕ → ℚ) (n T : ℕ) (w : ℕ → ℕ → ℚ)
    (init1 init2 : ℕ → ℚ) (hT : 2 ≤ T) :
    dlm_state G n T w init1 1 = dlm_state G n T w init2 1 := by
  have hlast : ∀ init : ℕ → ℚ, dlm_state0 init ((0 + T - 1) % T) = fun _ => (0 : ℚ) := by
    intro init
    have hmod : (0 + T - 1) % T = T - 1 := by
      rw [Nat.zero_add]; exact Nat.mod_eq_of_lt (by omega)
    rw [hmod]
    unfold dlm_state0
    rw [if_neg (by omega)]
  show Function.update (dlm_state G n T w init1 0) 0
      (fun i => matVec G n (dlm_state G n T w init1 0 ((0 + T - 1) % T)) i + w 0 i)
    = Function.update (dlm_state G n T w init2 0) 0
      (fun i => matVec G n (dlm_state G n T w init2 0 ((0 + T - 1) % T)) i + w 0 i)
  rw [dlm_state_zero, dlm_state_zero, hlast init1, hlast init2]
  funext idx
  rcases eq_or_ne idx 0 with h | h
  · subst h
    rw [Function.update_same, Function.update_same]
  · rw [Function.update_noteq h, Function.update_noteq h]
    unfold dlm_state0
    rw [if_neg h, if_neg h]

/-- The buffer after `k + 1` iterations is independent of `initial_state`. -/
theorem dlm_state_succ_eq (G : ℕ → ℕ → ℚ) (n T : ℕ) (w : ℕ → ℕ → ℚ)
    (init1 init2 : ℕ → ℚ) (hT : 2 ≤ T) (k : ℕ) :
    dlm_state G n T w init1 (k + 1) = dlm_state G n T w init2 (k + 1) := by
  induction k with
  | zero => exact dlm_state_one_eq G n T w init1 init2 hT
  | succ k ih =>
    show Function.update (dlm_state G n T w init1 (k + 1)) _ _
        = Function.update (dlm_state G n T w init2 (k + 1)) _ _
    rw [ih]

/-- Rows already written are never rewritten by later iterations. -/
theorem dlm_state_row_stable (G : ℕ → ℕ → ℚ) (n T : ℕ) (w : ℕ → ℕ → ℚ)
    (init : ℕ → ℚ) (r k : ℕ) (hk : r < k) :
    dlm_state G n T w init k r = dlm_state G n T w init (r + 1) r := by
  induction k with
  | zero => omega
  | succ k ih =>
    rcases eq_or_ne r k with h | h
    · subst h; rfl
    · have hrk : r < k := by omega
      show Function.update (dlm_state G n T w init k) k _ r = _
      rw [Function.update_noteq h]
      exact ih hrk

/-- C10: with a fixed random stream (`w` for state draws, `ν` for emission
draws), the state and emission outputs of `univariate_dlm_simulation` are
identical for any two values of `initial_state` when `T ≥ 2`; moreover the
returned trajectory starts at the pure noise draw `w 0`, not at
`initial_state`: iteration `0` computes `state[0]` from the still-zero last
row of the buffer. -/
theorem c10_dlm_simulation_ignores_initial_state (F G : ℕ → ℕ → ℚ)
    (w : ℕ → ℕ → ℚ) (ν : ℕ → ℚ) (n T : ℕ) (init1 init2 : ℕ → ℚ)
    (hT : 2 ≤ T) (t i : ℕ) :
    dlm_state (fun a b => G a b) n T w init1 T t i
        = dlm_state (fun a b => G a b) n T w init2 T t i ∧
    dlm_emission (fun a => F 0 a) n (dlm_state (fun a b => G a b) n T w init1 T t) (ν t)
        = dlm_emission (fun a => F 0 a) n (dlm_state (fun a b => G a b) n T w init2 T t) (ν t) ∧
    dlm_state (fun a b => G a b) n T w init1 T 0 i = w 0 i := by
  obtain ⟨T', rfl⟩ : ∃ T', T = T' + 1 := ⟨T - 1, by omega⟩
  have hstate := dlm_state_succ_eq (fun a b => G a b) n (T' + 1) w init1 init2 hT T'
  refine ⟨by rw [hstate], by rw [hstate], ?_⟩
  have hrow := dlm_state_row_stable (fun a b => G a b) n (T' + 1) w init1 0 (T' + 1) (by omega)
  rw [hrow]
  have hzero : dlm_state0 init1 ((0 + (T' + 1) - 1) % (T' + 1)) = fun _ => (0 : ℚ) := by
    have hmod : (0 + (T' + 1) - 1) % (T' + 1) = T' := by
      rw [Nat.zero_add]
      exact Nat.mod_eq_of_lt (by omega)
    rw [hmod]; unfold dlm_state0; rw [if_neg (by omega)]
  show Function.update (dlm_state (fun a b => G a b) n (T' + 1) w init1 0) 0
      (fun i => matVec (fun a b => G a b) n
        (dlm_state (fun a b => G a b) n (T' + 1) w init1 0 ((0 + (T' + 1) - 1) % (T' + 1))) i
        + w 0 i) 0 i = w 0 i
  rw [dlm_state_zero, hzero, Function.update_same]
  unfold matVec
  simp

/-- Witness for C10 at `T = 2`, `n = 1`, with distinct initial states. -/
theorem c10_witness :
    2 ≤ 2 ∧
    (dlm_state (fun a b => (fun _ _ => (1 : ℚ)) a b) 1 2 (fun _ _ => 1) (fun _ => 5) 2 0 0
        = dlm_state (fun a b => (fun _ _ => (1 : ℚ)) a b) 1 2 (fun _ _ => 1) (fun _ => 7) 2 0 0 ∧
      dlm_emission (fun a => (fun _ _ => (1 : ℚ)) 0 a) 1
          (dlm_state (fun a b => (fun _ _ => (1 : ℚ)) a b) 1 2 (fun _ _ => 1) (fun _ => 5) 2 0)
          ((fun _ => (3 : ℚ)) 0)
        = dlm_emission (fun a => (fun _ _ => (1 : ℚ)) 0 a) 1
          (dlm_state (fun a b => (fun _ _ => (1 : ℚ)) a b) 1 2 (fun _ _ => 1) (fun _ => 7) 2 0)
          ((fun _ => (3 : ℚ)) 0) ∧
      dlm_state (fun a b => (fun _ _ => (1 : ℚ)) a b) 1 2 (fun _ _ => 1) (fun _ => 5) 2 0 0
        = (fun _ _ => (1 : ℚ)) 0 0) :=
  ⟨by norm_num,
    c10_dlm_simulation_ignores_initial_state (fun _ _ => 1) (fun _ _ => 1)
      (fun _ _ => 1) (fun _ => 3) 1 2 (fun _ => 5) (fun _ => 7) (by norm_num) 0 0⟩

/-! ## The FFBS core

The class `bayesian_forecasting.FFBS` and the grid search
`bayesian_forecasting.GridSearchDiscountFFBS` are declared by the repository's
tests and callers but their module is not among the sources under
verification, so the engine below is modelled from the spec (§3–§4.5).
Missing observations are the `Option`-valued sentinel (`none` = NaN). -/

open Matrix

/-- Modelled from the spec: the state-evolution noise mode of `FFBS` — exactly
one of a fixed matrix `W` applied at every step or a discount factor `δ_evo`
with `R_t = P_t / δ_evo` (§3, §4.1). -/
inductive EvoMode (n : ℕ) where
  | fixedW (W : Matrix (Fin n) (Fin n) ℚ)
  | discount (δ : ℚ)

/-- Modelled from the spec: the observation-variance mode of `FFBS` — exactly
one of a known scalar `V` or inverse-gamma discounting with factor `δ_obs`
(§3, §4.1). -/
inductive ObsMode where
  | known (V : ℚ)
  | discount (δ : ℚ)

/-- Resymmetrization `(X + Xᵀ) / 2` applied after each covariance update (§3). -/
def symPart {n : ℕ} (M : Matrix (Fin n) (Fin n) ℚ) : Matrix (Fin n) (Fin n) ℚ :=
  (1 / 2 : ℚ) • (M + Mᵀ)

/-- Modelled from the spec: the filter's running state — posterior mean `m`,
posterior covariance `C`, and the inverse-gamma parameters `nn` (degrees of
freedom) and `ss` (scale), the latter two meaningful in discounted-V mode
(§3, §4.1). -/
@[ext]
structure FilterState (n : ℕ) where
  m : Fin n → ℚ
  C : Matrix (Fin n) (Fin n) ℚ
  nn : ℚ
  ss : ℚ

/-- Modelled from the spec: one per-step record of the forward filter (§3):
prior moments `a, R`, forecast `f, Q`, innovation `e`, gain `A`, posterior
moments `m, C`, Student-t degrees of freedom `nstar`, inverse-gamma state
`nn, ss`, and the assimilated observation `y` (`none` = missing). -/
@[ext]
structure StepRec (n : ℕ) where
  a : Fin n → ℚ
  R : Matrix (Fin n) (Fin n) ℚ
  f : ℚ
  Q : ℚ
  e : ℚ
  A : Fin n → ℚ
  m : Fin n → ℚ
  C : Matrix (Fin n) (Fin n) ℚ
  nstar : ℚ
  nn : ℚ
  ss : ℚ
  y : Option ℚ

/-- Modelled from the spec: prior covariance after evolution (§4.1 step 1) —
`P_t + W` in fixed-W mode, `P_t / δ_evo` in discounted mode, with
`P_t = G C_{t-1} Gᵀ` — resymmetrized (§3). -/
def priorR {n : ℕ} (G : Matrix (Fin n) (Fin n) ℚ) (evo : EvoMode n)
    (C : Matrix (Fin n) (Fin n) ℚ) : Matrix (Fin n) (Fin n) ℚ :=
  symPart (match evo with
    | .fixedW W => G * C * Gᵀ + W
    | .discount δ => δ⁻¹ • (G * C * Gᵀ))

/-- Modelled from the spec: discounted degrees of freedom
`n*_t = δ_obs · n_{t-1}` (§4.1 step 2); known-V mode carries the running
value unchanged. -/
def stepNstar (obs : ObsMode) (nn : ℚ) : ℚ :=
  match obs with
  | .known _ => nn
  | .discount δo => δo * nn

/-- Modelled from the spec: the observation variance used at this step (§4.1
step 2) — the known `V`, or the current inverse-gamma scale `s_{t-1}`. -/
def stepV (obs : ObsMode) (ss : ℚ) : ℚ :=
  match obs with
  | .known V => V
  | .discount _ => ss

/-- One-step forecast variance `Q_t = Fᵀ_t R_t F_t + V_t` (§4.1 step 3). -/
def stepQ {n : ℕ} (G : Matrix (Fin n) (Fin n) ℚ) (evo : EvoMode n) (obs : ObsMode)
    (st : FilterState n) (Ft : Fin n → ℚ) : ℚ :=
  Ft ⬝ᵥ (priorR G evo st.C).mulVec Ft + stepV obs st.ss

/-- Kalman gain `A_t = R_t F_t / Q_t` (§4.1 step 4). -/
def stepA {n : ℕ} (G : Matrix (Fin n) (Fin n) ℚ) (evo : EvoMode n) (obs : ObsMode)
    (st : FilterState n) (Ft : Fin n → ℚ) : Fin n → ℚ :=
  (stepQ G evo obs st Ft)⁻¹ • (priorR G evo st.C).mulVec Ft

/-- Modelled from the spec: one step of the forward filter (§4.1): evolve,
pick the step's observation variance, forecast, then update — or skip the
update entirely when `Y_t` is missing (posterior moments equal prior moments
and `ll_t = 0`); covariances are resymmetrized after each update (§3). -/
def step {n : ℕ} (G : Matrix (Fin n) (Fin n) ℚ) (evo : EvoMode n) (obs : ObsMode)
    (st : FilterState n) (Ft : Fin n → ℚ) (y : Option ℚ) : StepRec n :=
  match y with
  | none =>
      { a := G.mulVec st.m, R := priorR G evo st.C, f := Ft ⬝ᵥ G.mulVec st.m,
        Q := stepQ G evo obs st Ft, e := 0, A := fun _ => 0,
        m := G.mulVec st.m, C := priorR G evo st.C,
        nstar := stepNstar obs st.nn, nn := st.nn, ss := st.ss, y := none }
  | some yv =>
      let e : ℚ := yv - Ft ⬝ᵥ G.mulVec st.m
      let A : Fin n → ℚ := stepA G evo obs st Ft
      match obs with
      | .known _ =>
          { a := G.mulVec st.m, R := priorR G evo st.C, f := Ft ⬝ᵥ G.mulVec st.m,
            Q := stepQ G evo obs st Ft, e := e, A := A,
            m := G.mulVec st.m + e • A,
            C := symPart (priorR G evo st.C
              - stepQ G evo obs st Ft • Matrix.vecMulVec A A),
            nstar := stepNstar obs st.nn, nn := st.nn, ss := st.ss, y := some yv }
      | .discount _ =>
          let nn' : ℚ := stepNstar obs st.nn + 1
          let ss' : ℚ := st.ss * ((stepNstar obs st.nn + e ^ 2 / stepQ G evo obs st Ft) / nn')
          { a := G.mulVec st.m, R := priorR G evo st.C, f := Ft ⬝ᵥ G.mulVec st.m,
            Q := stepQ G evo obs st Ft, e := e, A := A,
            m := G.mulVec st.m + e • A,
            C := symPart ((ss' / st.ss) • (priorR G evo st.C
              - stepQ G evo obs st Ft • Matrix.vecMulVec A A)),
            nstar := stepNstar obs st.nn, nn := nn', ss := ss', y := some yv }

/-- The running state stored by a record. -/
def stateOf {n : ℕ} (r : StepRec n) : FilterState n := ⟨r.m, r.C, r.nn, r.ss⟩

/-- Modelled from the spec: `forward_filter` populates the per-step records by
iterating `step` over the `(F_t, Y_t)` inputs from the constructed state
(§4.1). -/
def runFilter {n : ℕ} (G : Matrix (Fin n) (Fin n) ℚ) (evo : EvoMode n) (obs : ObsMode) :
    FilterState n → List ((Fin n → ℚ) × Option ℚ) → List (StepRec n)
  | _, [] => []
  | st, (Ft, y) :: rest =>
      let r := step G evo obs st Ft y
      r :: runFilter G evo obs (stateOf r) rest

/-- The filter state after consuming all supplied steps. -/
def finalState {n : ℕ} (G : Matrix (Fin n) (Fin n) ℚ) (evo : EvoMode n) (obs : ObsMode) :
    FilterState n → List ((Fin n → ℚ) × Option ℚ) → FilterState n
  | st, [] => st
  | st, (Ft, y) :: rest => finalState G evo obs (stateOf (step G evo obs st Ft y)) rest

/-- Modelled from the spec: `append_observation(F_new, Y_new)` extends the
stored records by one filter step taken from the last stored posterior,
without revisiting earlier steps (§4.4). -/
def appendObservation {n : ℕ} (G : Matrix (Fin n) (Fin n) ℚ) (evo : EvoMode n)
    (obs : ObsMode) (st0 : FilterState n) (recs : List (StepRec n))
    (Fnew : Fin n → ℚ) (ynew : Option ℚ) : List (StepRec n) :=
  let last : FilterState n := match recs.getLast? with
    | none => st0
    | some r => stateOf r
  recs ++ [step G evo obs last Fnew ynew]

/-- Modelled from the spec: `mae`, the mean absolute one-step forecast error
over the stored records (§6). -/
def mae {n : ℕ} (recs : List (StepRec n)) : ℚ :=
  (recs.map (fun r => |r.e|)).sum / recs.length

/-- Filtering a concatenation filters the first part, then continues from the
state it reaches. -/
theorem runFilter_append {n : ℕ} (G : Matrix (Fin n) (Fin n) ℚ) (evo : EvoMode n)
    (obs : ObsMode) (st : FilterState n) (l1 l2 : List ((Fin n → ℚ) × Option ℚ)) :
    runFilter G evo obs st (l1 ++ l2)
      = runFilter G evo obs st l1
        ++ runFilter G evo obs (finalState G evo obs st l1) l2 := by
  induction l1 generalizing st with
  | nil => rfl
  | cons x rest ih =>
    obtain ⟨Ft, y⟩ := x
    show step G evo obs st Ft y :: runFilter G evo obs _ (rest ++ l2) = _
    rw [ih]
    rfl

/-- The state reached by the filter is the state stored in the last record
(or the initial state when no steps were consumed). -/
theorem finalState_eq_lastRec {n : ℕ} (G : Matrix (Fin n) (Fin n) ℚ) (evo : EvoMode n)
    (obs : ObsMode) (st : FilterState n) (l : List ((Fin n → ℚ) × Option ℚ)) :
    finalState G evo obs st l
      = (match (runFilter G evo obs st l).getLast? with
          | none => st
          | some r => stateOf r) := by
  induction l generalizing st with
  | nil => rfl
  | cons x rest ih =>
    obtain ⟨Ft, y⟩ := x
    show finalState G evo obs (stateOf (step G evo obs st Ft y)) rest = _
    rw [ih]
    cases hrest : runFilter G evo obs (stateOf (step G evo obs st Ft y)) rest with
    | nil =>
      show stateOf (step G evo obs st Ft y)
          = (match (runFilter G evo obs st ((Ft, y) :: rest)).getLast? with
              | none => st
              | some r => stateOf r)
      show stateOf (step G evo obs st Ft y)
          = (match (step G evo obs st Ft y
                :: runFilter G evo obs (stateOf (step G evo obs st Ft y)) rest).getLast? with
              | none => st
              | some r => stateOf r)
      rw [hrest]
      rfl
    | cons r rs =>
      show (match (r :: rs).getLast? with | none => st | some r => stateOf r) = _
      show _ = (match (step G evo obs st Ft y
            :: runFilter G evo obs (stateOf (step G evo obs st Ft y)) rest).getLast? with
          | none => st
          | some r => stateOf r)
      rw [hrest, List.getLast?_cons_cons]

/-- C1: for any valid input (same `G`, evolution mode and observation-variance
mode), filtering the first `T-1` observations and appending the last one with
`append_observation` yields exactly the same per-step records — in particular
exact equality is within `1e-10` relative — and the same `mae` as filtering
all `T` observations from the start. -/
theorem c1_append_observation_equivalence {n : ℕ} (G : Matrix (Fin n) (Fin n) ℚ)
    (evo : EvoMode n) (obs : ObsMode) (st0 : FilterState n)
    (l : List ((Fin n → ℚ) × Option ℚ)) (x : (Fin n → ℚ) × Option ℚ)
    (hT : 1 ≤ l.length) :
    appendObservation G evo obs st0 (runFilter G evo obs st0 l) x.1 x.2
        = runFilter G evo obs st0 (l ++ [x]) ∧
    mae (appendObservation G evo obs st0 (runFilter G evo obs st0 l) x.1 x.2)
        = mae (runFilter G evo obs st0 (l ++ [x])) := by
  have key : appendObservation G evo obs st0 (runFilter G evo obs st0 l) x.1 x.2
      = runFilter G evo obs st0 (l ++ [x]) := by
    obtain ⟨Ft, y⟩ := x
    rw [runFilter_append, finalState_eq_lastRec]
    rfl
  exact ⟨key, by rw [key]⟩

/-- Witness for C1: a concrete 1-dimensional two-step input split as 1 + 1. -/
theorem c1_witness :
    1 ≤ [((fun _ => 1 : Fin 1 → ℚ), some (1 : ℚ))].length ∧
    (appendObservation (1 : Matrix (Fin 1) (Fin 1) ℚ) (.discount (99 / 100)) (.known 1)
        ⟨fun _ => 0, 1, 1, 1⟩
        (runFilter 1 (.discount (99 / 100)) (.known 1) ⟨fun _ => 0, 1, 1, 1⟩
          [((fun _ => 1 : Fin 1 → ℚ), some (1 : ℚ))])
        ((fun _ => 1 : Fin 1 → ℚ), some (2 : ℚ)).1 ((fun _ => 1 : Fin 1 → ℚ), some (2 : ℚ)).2
      = runFilter 1 (.discount (99 / 100)) (.known 1) ⟨fun _ => 0, 1, 1, 1⟩
          ([((fun _ => 1 : Fin 1 → ℚ), some (1 : ℚ))] ++ [((fun _ => 1 : Fin 1 → ℚ), some 2)]) ∧
    mae (appendObservation (1 : Matrix (Fin 1) (Fin 1) ℚ) (.discount (99 / 100)) (.known 1)
        ⟨fun _ => 0, 1, 1, 1⟩
        (runFilter 1 (.discount (99 / 100)) (.known 1) ⟨fun _ => 0, 1, 1, 1⟩
          [((fun _ => 1 : Fin 1 → ℚ), some (1 : ℚ))])
        ((fun _ => 1 : Fin 1 → ℚ), some (2 : ℚ)).1 ((fun _ => 1 : Fin 1 → ℚ), some (2 : ℚ)).2)
      = mae (runFilter 1 (.discount (99 / 100)) (.known 1) ⟨fun _ => 0, 1, 1, 1⟩
          ([((fun _ => 1 : Fin 1 → ℚ), some (1 : ℚ))] ++ [((fun _ => 1 : Fin 1 → ℚ), some 2)]))) :=
  ⟨by norm_num,
    c1_append_observation_equivalence 1 (.discount (99 / 100)) (.known 1)
      ⟨fun _ => 0, 1, 1, 1⟩ [((fun _ => 1 : Fin 1 → ℚ), some (1 : ℚ))]
      ((fun _ => 1 : Fin 1 → ℚ), some (2 : ℚ)) (by norm_num)⟩

/-! ## Log-likelihood (real-valued: involves `log`, `π`, `Γ`) -/

/-- Modelled from the spec: the known-V per-step log-likelihood
`ll_t = log φ(Y_t; f_t, Q_t)` — the Gaussian log density as a function of the
innovation `e_t` and forecast variance `Q_t` (§4.1). -/
noncomputable def gaussLL (e Q : ℚ) : ℝ :=
  -(1 / 2) * Real.log (2 * Real.pi * (Q : ℝ)) - (e : ℝ) ^ 2 / (2 * (Q : ℝ))

/-- Modelled from the spec: the discounted-V per-step log-likelihood — the
scaled Student-t log density with `n*_t` degrees of freedom, location `f_t`
and scale² `Q_t`, evaluated at `Y_t` (§4.1). -/
noncomputable def studentLL (ν e Q : ℚ) : ℝ :=
  Real.log (Real.Gamma (((ν : ℝ) + 1) / 2)) - Real.log (Real.Gamma ((ν : ℝ) / 2))
    - (1 / 2) * Real.log ((ν : ℝ) * Real.pi * (Q : ℝ))
    - (((ν : ℝ) + 1) / 2) * Real.log (1 + (e : ℝ) ^ 2 / ((ν : ℝ) * (Q : ℝ)))

/-- Modelled from the spec: the log-likelihood contribution of one record —
`0` when the step's observation was missing (§4.1). -/
noncomputable def recLL {n : ℕ} (obs : ObsMode) (r : StepRec n) : ℝ :=
  match r.y with
  | none => 0
  | some _ =>
      match obs with
      | .known _ => gaussLL r.e r.Q
      | .discount _ => studentLL r.nstar r.e r.Q

/-- Modelled from the spec: `ll_sum`, the accumulated marginal log-likelihood
(§4.1: the sum of `ll_t` over all steps). -/
noncomputable def llSum {n : ℕ} (obs : ObsMode) (recs : List (StepRec n)) : ℝ :=
  (recs.map (recLL obs)).sum

/-- Unfolding equation for `runFilter` on a cons cell. -/
theorem runFilter_cons {n : ℕ} (G : Matrix (Fin n) (Fin n) ℚ) (evo : EvoMode n)
    (obs : ObsMode) (st : FilterState n) (Ft : Fin n → ℚ) (y : Option ℚ)
    (rest : List ((Fin n → ℚ) × Option ℚ)) :
    runFilter G evo obs st ((Ft, y) :: rest)
      = step G evo obs st Ft y
        :: runFilter G evo obs (stateOf (step G evo obs st Ft y)) rest := rfl

/-- C3: at every forward-filter step whose observation is the missing-value
sentinel, the update is skipped — posterior moments equal prior moments and
the log-likelihood contribution is `0` — and `ll_sum` is exactly the sum of
the contributions of the observed steps, so no missing value reaches it. -/
theorem c3_missing_observation_skipped {n : ℕ} (G : Matrix (Fin n) (Fin n) ℚ)
    (evo : EvoMode n) (obs : ObsMode) (st : FilterState n)
    (l : List ((Fin n → ℚ) × Option ℚ)) :
    (∀ r ∈ runFilter G evo obs st l, r.y = none →
      r.m = r.a ∧ r.C = r.R ∧ recLL obs r = 0) ∧
    llSum obs (runFilter G evo obs st l)
      = (((runFilter G evo obs st l).filter (fun r => r.y.isSome)).map (recLL obs)).sum := by
  constructor
  · intro r hr hy
    have hmiss : ∀ (st' : FilterState n) (Ft : Fin n → ℚ) (y : Option ℚ),
        r = step G evo obs st' Ft y → r.y = none →
        r.m = r.a ∧ r.C = r.R ∧ recLL obs r = 0 := by
      intro st' Ft y hstep hnone
      cases y with
      | none =>
        subst hstep
        refine ⟨rfl, rfl, ?_⟩
        show recLL obs (step G evo obs st' Ft none) = 0
        unfold recLL
        rfl
      | some yv =>
        subst hstep
        exfalso
        cases obs with
        | known V => exact Option.some_ne_none yv hnone
        | discount δo => exact Option.some_ne_none yv hnone
    induction l generalizing st with
    | nil => cases hr
    | cons x rest ih =>
      obtain ⟨Ft, y⟩ := x
      rcases List.mem_cons.mp hr with h | h
      · exact hmiss st Ft y h hy
      · exact ih _ h
  · induction l generalizing st with
    | nil => rfl
    | cons x rest ih =>
      obtain ⟨Ft, y⟩ := x
      show llSum obs (step G evo obs st Ft y :: runFilter G evo obs _ rest) = _
      have hcons : ∀ (r : StepRec n) (rs : List (StepRec n)),
          llSum obs (r :: rs) = recLL obs r + llSum obs rs := by
        intro r rs
        unfold llSum
        rw [List.map_cons, List.sum_cons]
      rw [hcons, ih]
      cases y with
      | none =>
        have h0 : recLL obs (step G evo obs st Ft none) = 0 := by
          unfold recLL
          rfl
        have hfilt : (step G evo obs st Ft none
              :: runFilter G evo obs (stateOf (step G evo obs st Ft none)) rest).filter
                (fun r => r.y.isSome)
            = (runFilter G evo obs (stateOf (step G evo obs st Ft none)) rest).filter
                (fun r => r.y.isSome) := by
          rw [List.filter_cons]
          have : (step G evo obs st Ft none).y.isSome = false := rfl
          rw [this]
          rfl
        rw [runFilter_cons, hfilt, h0, zero_add]
      | some yv =>
        have hsome : (step G evo obs st Ft (some yv)).y = some yv := by
          cases obs with
          | known V => rfl
          | discount δo => rfl
        have hfilt : (step G evo obs st Ft (some yv)
              :: runFilter G evo obs (stateOf (step G evo obs st Ft (some yv))) rest).filter
                (fun r => r.y.isSome)
            = step G evo obs st Ft (some yv)
              :: (runFilter G evo obs (stateOf (step G evo obs st Ft (some yv))) rest).filter
                (fun r => r.y.isSome) := by
          rw [List.filter_cons]
          have : (step G evo obs st Ft (some yv)).y.isSome = true := by
            rw [hsome]
            rfl
          rw [this]
          rfl
        rw [runFilter_cons, hfilt, List.map_cons, List.sum_cons]

/-! ## Backward smoother (§4.2) and backward sampler (§4.3) -/

/-- Smoothed marginal moments at one step. -/
structure SmoothRec (n : ℕ) where
  ms : Fin n → ℚ
  Cs : Matrix (Fin n) (Fin n) ℚ

/-- Matrix inverse via the adjugate (`M⁻¹ = det⁻¹ • adj M`), the smoother's
symmetric solve of `R_{t+1}⁻¹` (§4.2); on a singular input it degenerates,
which the anchor claim does not touch. -/
def matInv {n : ℕ} (M : Matrix (Fin n) (Fin n) ℚ) : Matrix (Fin n) (Fin n) ℚ :=
  (M.det)⁻¹ • M.adjugate

/-- Modelled from the spec: one step of the backward smoother (§4.2):
`B_t = C_t Gᵀ R_{t+1}⁻¹`, `m*_t = m_t + B_t (m*_{t+1} − a_{t+1})`,
`C*_t = C_t + B_t (C*_{t+1} − R_{t+1}) B_tᵀ`. -/
def smoothStep {n : ℕ} (G : Matrix (Fin n) (Fin n) ℚ) (r next : StepRec n)
    (sm : SmoothRec n) : SmoothRec n :=
  let B := r.C * Gᵀ * matInv next.R
  { ms := r.m + B.mulVec (sm.ms - next.a)
    Cs := r.C + B * (sm.Cs - next.R) * Bᵀ }

/-- Modelled from the spec: `backward_smooth` — anchored at the filtered
moments of the last step, then the recursion of §4.2 from `t = T-2` down to
`t = 0`. -/
def backwardSmooth {n : ℕ} (G : Matrix (Fin n) (Fin n) ℚ) :
    List (StepRec n) → List (SmoothRec n)
  | [] => []
  | [r] => [⟨r.m, r.C⟩]
  | r :: next :: rest =>
      let tail := backwardSmooth G (next :: rest)
      smoothStep G r next (tail.headD ⟨r.m, r.C⟩) :: tail

/-- The smoother fills one moment pair per filtered step. -/
theorem backwardSmooth_length {n : ℕ} (G : Matrix (Fin n) (Fin n) ℚ) :
    ∀ recs : List (StepRec n), (backwardSmooth G recs).length = recs.length
  | [] => rfl
  | [r] => rfl
  | r :: next :: rest => by
    show (smoothStep G r next _ :: backwardSmooth G (next :: rest)).length
        = (r :: next :: rest).length
    rw [List.length_cons, backwardSmooth_length G (next :: rest)]
    rfl

/-- The last smoothed entry is the filtered moments of the last record. -/
theorem backwardSmooth_getLast {n : ℕ} (G : Matrix (Fin n) (Fin n) ℚ) :
    ∀ recs : List (StepRec n),
      (backwardSmooth G recs).getLast?
        = recs.getLast?.map (fun r => (⟨r.m, r.C⟩ : SmoothRec n))
  | [] => rfl
  | [r] => rfl
  | r :: next :: rest => by
    have htail := backwardSmooth_getLast G (next :: rest)
    show (smoothStep G r next _ :: backwardSmooth G (next :: rest)).getLast? = _
    cases hb : backwardSmooth G (next :: rest) with
    | nil =>
      have := backwardSmooth_length G (next :: rest)
      rw [hb] at this
      exact absurd this.symm (by simp)
    | cons b bs =>
      rw [hb] at htail
      rw [List.getLast?_cons_cons, htail, List.getLast?_cons_cons]

/-- C5: for a completed forward pass with `T ≥ 2`, `backward_smooth`
initializes the smoothed moments at the last step to the filtered moments
exactly, and fills one smoothed moment pair for every `t` from `T-2` down to
`0` (the output has an entry per step, each produced by the §4.2 recursion). -/
theorem c5_smoother_anchors {n : ℕ} (G : Matrix (Fin n) (Fin n) ℚ)
    (recs : List (StepRec n)) (h : 2 ≤ recs.length) :
    (backwardSmooth G recs).length = recs.length ∧
    (∀ rlast, recs.getLast? = some rlast →
      (backwardSmooth G recs).getLast? = some ⟨rlast.m, rlast.C⟩) := by
  refine ⟨backwardSmooth_length G recs, ?_⟩
  intro rlast hlast
  rw [backwardSmooth_getLast G recs, hlast]
  rfl

/-- A concrete one-dimensional record, used by witnesses. -/
def demoRec (v : ℚ) : StepRec 1 where
  a := fun _ => 0
  R := 1
  f := 0
  Q := 2
  e := 0
  A := fun _ => 0
  m := fun _ => v
  C := 1
  nstar := 1
  nn := 1
  ss := 1
  y := some 0

/-- Witness for C5 on a concrete two-record list. -/
theorem c5_witness :
    2 ≤ [demoRec 3, demoRec 4].length ∧
    ((backwardSmooth (1 : Matrix (Fin 1) (Fin 1) ℚ) [demoRec 3, demoRec 4]).length
        = [demoRec 3, demoRec 4].length ∧
      (∀ rlast, [demoRec 3, demoRec 4].getLast? = some rlast →
        (backwardSmooth (1 : Matrix (Fin 1) (Fin 1) ℚ) [demoRec 3, demoRec 4]).getLast?
          = some ⟨rlast.m, rlast.C⟩)) :=
  ⟨by norm_num,
    c5_smoother_anchors (1 : Matrix (Fin 1) (Fin 1) ℚ) [demoRec 3, demoRec 4] (by norm_num)⟩

/-- Modelled from the spec: one full trajectory of the backward sampler
(§4.3).  `z t` is the standard-normal vector consumed at backward index `t`
(counted from the end of the record, matching a fixed stream), and `chol`
supplies the covariance square root used to correlate each Gaussian draw
(the Cholesky factor, which has no closed rational form). -/
def sampleTraj {n : ℕ} (G : Matrix (Fin n) (Fin n) ℚ)
    (chol : Matrix (Fin n) (Fin n) ℚ → Matrix (Fin n) (Fin n) ℚ)
    (z : ℕ → Fin n → ℚ) : List (StepRec n) → List (Fin n → ℚ)
  | [] => []
  | [r] => [r.m + (chol r.C).mulVec (z 0)]
  | r :: next :: rest =>
      let tail := sampleTraj G chol z (next :: rest)
      let θnext := tail.headD (fun _ => 0)
      let B := r.C * Gᵀ * matInv next.R
      let h := r.m + B.mulVec (θnext - next.a)
      let H := r.C - B * next.R * Bᵀ
      (h + (chol H).mulVec (z (rest.length + 1))) :: tail

/-- A sampled trajectory has one state vector per filtered step. -/
theorem sampleTraj_length {n : ℕ} (G : Matrix (Fin n) (Fin n) ℚ)
    (chol : Matrix (Fin n) (Fin n) ℚ → Matrix (Fin n) (Fin n) ℚ)
    (z : ℕ → Fin n → ℚ) :
    ∀ recs : List (StepRec n), (sampleTraj G chol z recs).length = recs.length
  | [] => rfl
  | [r] => rfl
  | r :: next :: rest => by
    show (_ :: sampleTraj G chol z (next :: rest)).length = (r :: next :: rest).length
    rw [List.length_cons, sampleTraj_length G chol z (next :: rest)]
    rfl

/-- Output of `backward_sample`: a `(T, n)` trajectory when `num_samples = 1`,
otherwise a `(T, n, k)` tensor (nested lists, outermost index first). -/
inductive SampleOut where
  | traj (data : List (List ℚ))
  | tensor (data : List (List (List ℚ)))

/-- Modelled from the spec: `backward_sample(num_samples = k)` draws `k`
trajectories (sample `s` consumes stream `z s`) and stacks them into a
`(T, n, k)` tensor; a `k = 1` result is squeezed to a `(T, n)` trajectory
(§4.3). -/
def backwardSample {n : ℕ} (G : Matrix (Fin n) (Fin n) ℚ)
    (chol : Matrix (Fin n) (Fin n) ℚ → Matrix (Fin n) (Fin n) ℚ)
    (z : ℕ → ℕ → Fin n → ℚ) (recs : List (StepRec n)) (k : ℕ) : SampleOut :=
  let trajs : List (List (Fin n → ℚ)) :=
    (List.range k).map (fun s => sampleTraj G chol (z s) recs)
  if k = 1 then
    .traj ((trajs.headD []).map List.ofFn)
  else
    .tensor ((List.range recs.length).map (fun t =>
      (List.range n).map (fun i =>
        (List.range k).map (fun s =>
          (List.ofFn ((trajs.getD s []).getD t (fun _ : Fin n => (0 : ℚ)))).getD i 0))))

/-- C6: for every completed forward pass and every `k ≥ 1`,
`backward_sample(num_samples = k)` returns a `(T, n, k)` tensor, except that
`k = 1` returns a `(T, n)` trajectory. -/
theorem c6_backward_sample_shape {n : ℕ} (G : Matrix (Fin n) (Fin n) ℚ)
    (chol : Matrix (Fin n) (Fin n) ℚ → Matrix (Fin n) (Fin n) ℚ)
    (z : ℕ → ℕ → Fin n → ℚ) (recs : List (StepRec n)) (k : ℕ) (hk : 1 ≤ k) :
    (k = 1 → ∃ d, backwardSample G chol z recs k = .traj d ∧
        d.length = recs.length ∧ ∀ row ∈ d, row.length = n) ∧
    (k ≠ 1 → ∃ d, backwardSample G chol z recs k = .tensor d ∧
        d.length = recs.length ∧ ∀ mat ∈ d, mat.length = n ∧
          ∀ row ∈ mat, row.length = k) := by
  constructor
  · intro h1
    subst h1
    refine ⟨(sampleTraj G chol (z 0) recs).map List.ofFn, ?_, ?_, ?_⟩
    · show backwardSample G chol z recs 1
          = SampleOut.traj ((sampleTraj G chol (z 0) recs).map List.ofFn)
      unfold backwardSample
      rw [if_pos rfl]
      rfl
    · rw [List.length_map, sampleTraj_length]
    · intro row hrow
      rcases List.mem_map.mp hrow with ⟨v, hv, hofn⟩
      rw [← hofn, List.length_ofFn]
  · intro h1
    refine ⟨(List.range recs.length).map (fun t =>
      (List.range n).map (fun i =>
        (List.range k).map (fun s =>
          (List.ofFn ((((List.range k).map (fun s' => sampleTraj G chol (z s') recs)).getD s
              []).getD t (fun _ : Fin n => (0 : ℚ)))).getD i 0))), ?_, ?_, ?_⟩
    · unfold backwardSample
      rw [if_neg h1]
    · rw [List.length_map, List.length_range]
    · intro mat hmat
      rcases List.mem_map.mp hmat with ⟨t, ht, hmat'⟩
      constructor
      · rw [← hmat', List.length_map, List.length_range]
      · intro row hrow
        rw [← hmat'] at hrow
        rcases List.mem_map.mp hrow with ⟨i, hi, hrow'⟩
        rw [← hrow', List.length_map, List.length_range]

/-- Witness for C6 at `k = 2` on the concrete record list of the C5 witness. -/
theorem c6_witness :
    1 ≤ 2 ∧
    ((2 = 1 → ∃ d, backwardSample (1 : Matrix (Fin 1) (Fin 1) ℚ) id
          (fun _ _ _ => 1) [demoRec 3, demoRec 4] 2 = .traj d ∧
        d.length = [demoRec 3, demoRec 4].length ∧ ∀ row ∈ d, row.length = 1) ∧
    (2 ≠ 1 → ∃ d, backwardSample (1 : Matrix (Fin 1) (Fin 1) ℚ) id
          (fun _ _ _ => 1) [demoRec 3, demoRec 4] 2 = .tensor d ∧
        d.length = [demoRec 3, demoRec 4].length ∧ ∀ mat ∈ d, mat.length = 1 ∧
          ∀ row ∈ mat, row.length = 2)) :=
  ⟨by norm_num,
    c6_backward_sample_shape (1 : Matrix (Fin 1) (Fin 1) ℚ) id (fun _ _ _ => 1)
      [demoRec 3, demoRec 4] 2 (by norm_num)⟩

/-! ## Covariance invariants (C4): symmetry and positive forecast variance -/

/-- Quadratic form `xᵀ M x`. -/
def qForm {n : ℕ} (M : Matrix (Fin n) (Fin n) ℚ) (x : Fin n → ℚ) : ℚ :=
  x ⬝ᵥ M.mulVec x

/-- Symmetry together with positive semi-definiteness of the quadratic form. -/
def IsPSD {n : ℕ} (M : Matrix (Fin n) (Fin n) ℚ) : Prop :=
  Mᵀ = M ∧ ∀ x : Fin n → ℚ, 0 ≤ qForm M x

/-- Transposition preserves the quadratic form. -/
theorem qForm_transpose {n : ℕ} (M : Matrix (Fin n) (Fin n) ℚ) (x : Fin n → ℚ) :
    qForm Mᵀ x = qForm M x := by
  unfold qForm
  rw [Matrix.mulVec_transpose, dotProduct_comm, ← Matrix.dotProduct_mulVec]

/-- The quadratic form is additive in the matrix. -/
theorem qForm_add {n : ℕ} (M N : Matrix (Fin n) (Fin n) ℚ) (x : Fin n → ℚ) :
    qForm (M + N) x = qForm M x + qForm N x := by
  unfold qForm
  rw [Matrix.add_mulVec, dotProduct_add]

/-- The quadratic form is subtractive in the matrix. -/
theorem qForm_sub {n : ℕ} (M N : Matrix (Fin n) (Fin n) ℚ) (x : Fin n → ℚ) :
    qForm (M - N) x = qForm M x - qForm N x := by
  unfold qForm
  rw [Matrix.sub_mulVec, dotProduct_sub]

/-- The quadratic form scales with the matrix. -/
theorem qForm_smul {n : ℕ} (c : ℚ) (M : Matrix (Fin n) (Fin n) ℚ) (x : Fin n → ℚ) :
    qForm (c • M) x = c * qForm M x := by
  unfold qForm
  rw [Matrix.smul_mulVec_assoc, dotProduct_smul, smul_eq_mul]

/-- Resymmetrization preserves the quadratic form. -/
theorem qForm_symPart {n : ℕ} (M : Matrix (Fin n) (Fin n) ℚ) (x : Fin n → ℚ) :
    qForm (symPart M) x = qForm M x := by
  unfold symPart
  rw [qForm_smul, qForm_add, qForm_transpose]
  ring

/-- The resymmetrized matrix is symmetric. -/
theorem symPart_transpose {n : ℕ} (M : Matrix (Fin n) (Fin n) ℚ) :
    (symPart M)ᵀ = symPart M := by
  unfold symPart
  rw [Matrix.transpose_smul, Matrix.transpose_add, Matrix.transpose_transpose, add_comm]

/-- A matrix with a nonnegative quadratic form resymmetrizes to a PSD matrix. -/
theorem isPSD_symPart {n : ℕ} (M : Matrix (Fin n) (Fin n) ℚ)
    (h : ∀ x, 0 ≤ qForm M x) : IsPSD (symPart M) :=
  ⟨symPart_transpose M, fun x => by rw [qForm_symPart]; exact h x⟩

/-- Congruence `G M Gᵀ` evaluates the form at the transported vector. -/
theorem qForm_conj {n : ℕ} (G M : Matrix (Fin n) (Fin n) ℚ) (x : Fin n → ℚ) :
    qForm (G * M * Gᵀ) x = qForm M (Gᵀ.mulVec x) := by
  unfold qForm
  rw [← Matrix.mulVec_mulVec, ← Matrix.mulVec_mulVec, Matrix.dotProduct_mulVec,
    ← Matrix.mulVec_transpose]

/-- Rank-one outer product applied to a vector. -/
theorem vecMulVec_mulVec_eq {n : ℕ} (v w x : Fin n → ℚ) :
    (Matrix.vecMulVec v w).mulVec x = (w ⬝ᵥ x) • v := by
  funext i
  simp only [Matrix.mulVec, Matrix.vecMulVec_apply, dotProduct, Pi.smul_apply, smul_eq_mul,
    mul_assoc]
  rw [← Finset.mul_sum]
  ring

/-- Quadratic form of a symmetric rank-one outer product. -/
theorem qForm_vecMulVec {n : ℕ} (v x : Fin n → ℚ) :
    qForm (Matrix.vecMulVec v v) x = (v ⬝ᵥ x) ^ 2 := by
  unfold qForm
  rw [vecMulVec_mulVec_eq, dotProduct_smul, smul_eq_mul, dotProduct_comm]
  ring

/-- For a symmetric matrix the bilinear form is symmetric in its arguments. -/
theorem dotProduct_mulVec_symm {n : ℕ} (M : Matrix (Fin n) (Fin n) ℚ)
    (hsym : Mᵀ = M) (x v : Fin n → ℚ) :
    v ⬝ᵥ M.mulVec x = x ⬝ᵥ M.mulVec v := by
  rw [Matrix.dotProduct_mulVec, ← Matrix.mulVec_transpose, hsym, dotProduct_comm]

/-- Cauchy–Schwarz for the semi-inner product of a symmetric PSD matrix. -/
theorem qForm_cauchy_schwarz {n : ℕ} (M : Matrix (Fin n) (Fin n) ℚ)
    (hsym : Mᵀ = M) (hpsd : ∀ x, 0 ≤ qForm M x) (x v : Fin n → ℚ) :
    (x ⬝ᵥ M.mulVec v) ^ 2 ≤ qForm M x * qForm M v := by
  have hcross : ∀ t : ℚ, qForm M (x + t • v)
      = qForm M v * (t * t) + (2 * (x ⬝ᵥ M.mulVec v)) * t + qForm M x := by
    intro t
    unfold qForm
    rw [Matrix.mulVec_add, Matrix.mulVec_smul, dotProduct_add, add_dotProduct,
      add_dotProduct, dotProduct_smul, smul_dotProduct, smul_dotProduct,
      dotProduct_smul, smul_eq_mul, smul_eq_mul, smul_eq_mul, smul_eq_mul,
      dotProduct_mulVec_symm M hsym x v]
    ring
  have hdisc := discrim_le_zero
    (a := qForm M v) (b := 2 * (x ⬝ᵥ M.mulVec v)) (c := qForm M x)
    (fun t => by rw [← hcross t]; exact hpsd _)
  unfold discrim at hdisc
  nlinarith [hdisc]

/-- The posterior covariance body `R − Q·A Aᵀ` keeps a nonnegative quadratic
form whenever `R` is symmetric PSD, `Q = Fᵀ R F + V` and `V > 0`. -/
theorem qForm_posterior_nonneg {n : ℕ} (R : Matrix (Fin n) (Fin n) ℚ)
    (Ft : Fin n → ℚ) (Vt : ℚ) (hsym : Rᵀ = R) (hpsd : ∀ x, 0 ≤ qForm R x)
    (hV : 0 < Vt) (x : Fin n → ℚ) :
    0 ≤ qForm (R - (Ft ⬝ᵥ R.mulVec Ft + Vt) •
        Matrix.vecMulVec ((Ft ⬝ᵥ R.mulVec Ft + Vt)⁻¹ • R.mulVec Ft)
          ((Ft ⬝ᵥ R.mulVec Ft + Vt)⁻¹ • R.mulVec Ft)) x := by
  set Q : ℚ := Ft ⬝ᵥ R.mulVec Ft + Vt with hQ
  have hqf : Ft ⬝ᵥ R.mulVec Ft = qForm R Ft := rfl
  have hQpos : 0 < Q := by
    rw [hQ, hqf]
    have := hpsd Ft
    linarith
  rw [qForm_sub, qForm_smul, qForm_vecMulVec]
  have hdot : ((Ft ⬝ᵥ R.mulVec Ft + Vt)⁻¹ • R.mulVec Ft) ⬝ᵥ x
      = Q⁻¹ * (x ⬝ᵥ R.mulVec Ft) := by
    rw [smul_dotProduct, smul_eq_mul, ← hQ, dotProduct_comm]
  rw [hdot]
  have hcs := qForm_cauchy_schwarz R hsym hpsd x Ft
  have hQne : Q ≠ 0 := ne_of_gt hQpos
  have hexpand : Q * (Q⁻¹ * (x ⬝ᵥ R.mulVec Ft)) ^ 2
      = (x ⬝ᵥ R.mulVec Ft) ^ 2 / Q := by
    field_simp
    ring
  rw [hexpand, sub_nonneg, div_le_iff₀ hQpos]
  have hQeq : Q = qForm R Ft + Vt := by rw [hQ, hqf]
  nlinarith [hcs, hpsd x, hpsd Ft, hV, mul_nonneg (hpsd x) (le_of_lt hV)]

/-- Validity of the mode configuration (§4.6): a PSD fixed `W`, discounts in
`(0, 1]`, a positive known `V`. -/
def ValidMode {n : ℕ} (evo : EvoMode n) (obs : ObsMode) : Prop :=
  (match evo with
    | .fixedW W => IsPSD W
    | .discount δ => 0 < δ ∧ δ ≤ 1) ∧
  (match obs with
    | .known V => 0 < V
    | .discount δo => 0 < δo ∧ δo ≤ 1)

/-- Invariant carried by the filter state: symmetric PSD posterior covariance
and positive inverse-gamma parameters. -/
def StateInv {n : ℕ} (st : FilterState n) : Prop :=
  IsPSD st.C ∧ 0 < st.nn ∧ 0 < st.ss

/-- The evolved prior covariance is symmetric PSD under a valid mode. -/
theorem priorR_isPSD {n : ℕ} (G : Matrix (Fin n) (Fin n) ℚ) (evo : EvoMode n)
    (C : Matrix (Fin n) (Fin n) ℚ)
    (hevo : match evo with
      | .fixedW W => IsPSD W
      | .discount δ => 0 < δ ∧ δ ≤ 1)
    (hC : ∀ x, 0 ≤ qForm C x) : IsPSD (priorR G evo C) := by
  apply isPSD_symPart
  intro x
  cases evo with
  | fixedW W =>
    show 0 ≤ qForm (G * C * Gᵀ + W) x
    rw [qForm_add, qForm_conj]
    have h1 := hC (Gᵀ.mulVec x)
    have h2 := hevo.2 x
    linarith
  | discount δ =>
    show 0 ≤ qForm (δ⁻¹ • (G * C * Gᵀ)) x
    rw [qForm_smul, qForm_conj]
    have h1 := hC (Gᵀ.mulVec x)
    have h2 : 0 ≤ δ⁻¹ := le_of_lt (inv_pos.mpr hevo.1)
    positivity

/-- The per-step observation variance is positive under a valid mode. -/
theorem stepV_pos {n : ℕ} (evo : EvoMode n) (obs : ObsMode) (ss : ℚ)
    (hv : ValidMode evo obs) (hss : 0 < ss) : 0 < stepV obs ss := by
  cases obs with
  | known V => exact hv.2
  | discount δo => exact hss

/-- The one-step forecast variance is positive under valid mode and state. -/
theorem stepQ_pos {n : ℕ} (G : Matrix (Fin n) (Fin n) ℚ) (evo : EvoMode n)
    (obs : ObsMode) (st : FilterState n) (Ft : Fin n → ℚ)
    (hv : ValidMode evo obs) (hst : StateInv st) : 0 < stepQ G evo obs st Ft := by
  unfold stepQ
  have hR := priorR_isPSD G evo st.C hv.1 hst.1.2
  have h1 : Ft ⬝ᵥ (priorR G evo st.C).mulVec Ft = qForm (priorR G evo st.C) Ft := rfl
  have h2 := hR.2 Ft
  have h3 := stepV_pos evo obs st.ss hv hst.2.2
  rw [h1]
  linarith

/-- One filter step preserves every invariant and produces a symmetric PSD
`R`, a positive `Q` and a symmetric PSD `C`. -/
theorem step_inv {n : ℕ} (G : Matrix (Fin n) (Fin n) ℚ) (evo : EvoMode n)
    (obs : ObsMode) (st : FilterState n) (Ft : Fin n → ℚ) (y : Option ℚ)
    (hv : ValidMode evo obs) (hst : StateInv st) :
    IsPSD (step G evo obs st Ft y).R ∧ 0 < (step G evo obs st Ft y).Q ∧
      IsPSD (step G evo obs st Ft y).C ∧ 0 < (step G evo obs st Ft y).nn ∧
      0 < (step G evo obs st Ft y).ss := by
  have hR := priorR_isPSD G evo st.C hv.1 hst.1.2
  have hQ := stepQ_pos G evo obs st Ft hv hst
  have hVt := stepV_pos evo obs st.ss hv hst.2.2
  have hpost : ∀ x, 0 ≤ qForm (priorR G evo st.C
      - stepQ G evo obs st Ft • Matrix.vecMulVec (stepA G evo obs st Ft)
          (stepA G evo obs st Ft)) x := by
    intro x
    have := qForm_posterior_nonneg (priorR G evo st.C) Ft (stepV obs st.ss)
      hR.1 hR.2 hVt x
    exact this
  cases y with
  | none =>
    refine ⟨hR, hQ, hR, hst.2.1, hst.2.2⟩
  | some yv =>
    cases obs with
    | known V =>
      refine ⟨hR, hQ, ?_, hst.2.1, hst.2.2⟩
      exact isPSD_symPart _ hpost
    | discount δo =>
      have hnstar : 0 < stepNstar (ObsMode.discount δo) st.nn := by
        show 0 < δo * st.nn
        exact mul_pos hv.2.1 hst.2.1
      set e : ℚ := yv - Ft ⬝ᵥ G.mulVec st.m with he
      set Qv : ℚ := stepQ G evo (ObsMode.discount δo) st Ft with hQv
      set ns : ℚ := stepNstar (ObsMode.discount δo) st.nn with hns
      have hnn' : (0 : ℚ) < ns + 1 := by linarith
      have hratio : 0 < (ns + e ^ 2 / Qv) / (ns + 1) := by
        apply div_pos
        · have h0 : 0 ≤ e ^ 2 / Qv := div_nonneg (sq_nonneg e) (le_of_lt hQ)
          linarith
        · exact hnn'
      have hss' : 0 < st.ss * ((ns + e ^ 2 / Qv) / (ns + 1)) :=
        mul_pos hst.2.2 hratio
      refine ⟨hR, hQ, ?_, ?_, ?_⟩
      · show IsPSD (symPart ((st.ss * ((ns + e ^ 2 / Qv) / (ns + 1)) / st.ss)
          • (priorR G evo st.C - Qv • Matrix.vecMulVec
              (stepA G evo (ObsMode.discount δo) st Ft)
              (stepA G evo (ObsMode.discount δo) st Ft))))
        apply isPSD_symPart
        intro x
        rw [qForm_smul]
        have hc : 0 ≤ st.ss * ((ns + e ^ 2 / Qv) / (ns + 1)) / st.ss :=
          le_of_lt (div_pos hss' hst.2.2)
        exact mul_nonneg hc (hpost x)
      · show (0 : ℚ) < ns + 1
        exact hnn'
      · show 0 < st.ss * ((ns + e ^ 2 / Qv) / (ns + 1))
        exact hss'

/-- Every record produced by the forward filter satisfies the covariance and
forecast-variance invariants, given a valid configuration and initial state. -/
theorem runFilter_inv {n : ℕ} (G : Matrix (Fin n) (Fin n) ℚ) (evo : EvoMode n)
    (obs : ObsMode) (hv : ValidMode evo obs) :
    ∀ (l : List ((Fin n → ℚ) × Option ℚ)) (st : FilterState n), StateInv st →
      ∀ r ∈ runFilter G evo obs st l,
        IsPSD r.R ∧ 0 < r.Q ∧ IsPSD r.C ∧ 0 < r.nn ∧ 0 < r.ss
  | [], st, hst => by
    intro r hr
    cases hr
  | (Ft, y) :: rest, st, hst => by
    intro r hr
    have hstep := step_inv G evo obs st Ft y hv hst
    rcases List.mem_cons.mp hr with h | h
    · rw [h]
      exact hstep
    · have hst' : StateInv (stateOf (step G evo obs st Ft y)) :=
        ⟨hstep.2.2.1, hstep.2.2.2.1, hstep.2.2.2.2⟩
      exact runFilter_inv G evo obs hv rest _ hst' r h

/-- C4: after every forward-filter step, in every mode and for every valid
input (symmetric PSD `C0`, positive `n0`, `s0`, valid discounts / `V` / `W`),
the recorded covariances `C_t` and `R_t` are symmetric — the filter
resymmetrizes `(X + Xᵀ)/2` after each update — and the scalar one-step
forecast variance satisfies `Q_t > 0`. -/
theorem c4_covariance_invariants {n : ℕ} (G : Matrix (Fin n) (Fin n) ℚ)
    (evo : EvoMode n) (obs : ObsMode) (m0 : Fin n → ℚ)
    (C0 : Matrix (Fin n) (Fin n) ℚ) (n0 s0 : ℚ)
    (l : List ((Fin n → ℚ) × Option ℚ))
    (hv : ValidMode evo obs) (hC0 : IsPSD C0) (hn0 : 0 < n0) (hs0 : 0 < s0) :
    ∀ r ∈ runFilter G evo obs ⟨m0, C0, n0, s0⟩ l,
      r.Rᵀ = r.R ∧ r.Cᵀ = r.C ∧ 0 < r.Q := by
  intro r hr
  have h := runFilter_inv G evo obs hv l ⟨m0, C0, n0, s0⟩ ⟨hC0, hn0, hs0⟩ r hr
  exact ⟨h.1.1, h.2.2.1.1, h.2.1⟩

/-- Witness for C4: the trivial one-dimensional filter in discounted-evolution
and known-V mode on a single observed step. -/
theorem c4_witness :
    (ValidMode (n := 1) (.discount (99 / 100)) (.known 1) ∧
      IsPSD (1 : Matrix (Fin 1) (Fin 1) ℚ) ∧ (0 : ℚ) < 1 ∧ (0 : ℚ) < 1) ∧
    ∀ r ∈ runFilter (1 : Matrix (Fin 1) (Fin 1) ℚ) (.discount (99 / 100)) (.known 1)
        ⟨fun _ => 0, 1, 1, 1⟩ [((fun _ => 1 : Fin 1 → ℚ), some (1 : ℚ))],
      r.Rᵀ = r.R ∧ r.Cᵀ = r.C ∧ 0 < r.Q := by
  have hvm : ValidMode (n := 1) (.discount (99 / 100)) (.known 1) := by
    constructor
    · show (0 : ℚ) < 99 / 100 ∧ (99 / 100 : ℚ) ≤ 1
      norm_num
    · show (0 : ℚ) < 1
      norm_num
  have hpsd1 : IsPSD (1 : Matrix (Fin 1) (Fin 1) ℚ) := by
    constructor
    · exact Matrix.transpose_one
    · intro x
      unfold qForm
      rw [Matrix.one_mulVec]
      exact Finset.sum_nonneg fun i _ => mul_self_nonneg (x i)
  exact ⟨⟨hvm, hpsd1, by norm_num, by norm_num⟩,
    c4_covariance_invariants (1 : Matrix (Fin 1) (Fin 1) ℚ) (.discount (99 / 100))
      (.known 1) (fun _ => 0) 1 1 1 [((fun _ => 1 : Fin 1 → ℚ), some (1 : ℚ))]
      hvm hpsd1 (by norm_num) (by norm_num)⟩

/-! ## Discount grid search (C2) -/

/-- "Smaller evolution discount first, then smaller observation discount":
the lexicographic order used to break score ties (§4.5). -/
def lexLe (p q : ℚ × ℚ) : Prop :=
  p.1 < q.1 ∨ (p.1 = q.1 ∧ p.2 ≤ q.2)

/-- Strict lexicographic comparison on discount pairs. -/
def lexLt (p q : ℚ × ℚ) : Prop :=
  p.1 < q.1 ∨ (p.1 = q.1 ∧ p.2 < q.2)

instance lexLt_decidable (p q : ℚ × ℚ) : Decidable (lexLt p q) := by
  unfold lexLt
  infer_instance

/-- `lexLe` is reflexive. -/
theorem lexLe_refl (p : ℚ × ℚ) : lexLe p p := Or.inr ⟨rfl, le_refl _⟩

/-- `lexLe` is transitive. -/
theorem lexLe_trans {p q r : ℚ × ℚ} (h1 : lexLe p q) (h2 : lexLe q r) : lexLe p r := by
  rcases h1 with h1 | ⟨h1, h1'⟩ <;> rcases h2 with h2 | ⟨h2, h2'⟩
  · exact Or.inl (lt_trans h1 h2)
  · exact Or.inl (h2 ▸ h1)
  · exact Or.inl (h1 ▸ h2)
  · exact Or.inr ⟨h1.trans h2, le_trans h1' h2'⟩

/-- Strict lexicographic order implies the weak one. -/
theorem lexLt_le {p q : ℚ × ℚ} (h : lexLt p q) : lexLe p q := by
  rcases h with h | ⟨h, h'⟩
  · exact Or.inl h
  · exact Or.inr ⟨h, le_of_lt h'⟩

/-- Totality: if `q` is not strictly below `p`, then `p ≤ q`. -/
theorem lexLe_of_not_lt {p q : ℚ × ℚ} (h : ¬ lexLt q p) : lexLe p q := by
  unfold lexLt at h
  push_neg at h
  rcases lt_trichotomy p.1 q.1 with h1 | h1 | h1
  · exact Or.inl h1
  · exact Or.inr ⟨h1, h.2 h1.symm⟩
  · exact absurd h1 (not_lt.mpr h.1)

/-- Modelled from the spec: the selection fold of the grid search — keep the
incumbent unless the candidate scores strictly higher, or ties the score with
a lexicographically smaller discount pair (§4.5). -/
def selectBest {α : Type} [LinearOrder α] (score : ℚ × ℚ → α) :
    ℚ × ℚ → List (ℚ × ℚ) → ℚ × ℚ
  | best, [] => best
  | best, q :: rest =>
      if score best < score q ∨ (score q = score best ∧ lexLt q best) then
        selectBest score q rest
      else
        selectBest score best rest

/-- The selected pair belongs to the candidates, maximizes the score, and is
lexicographically least among score ties. -/
theorem selectBest_spec {α : Type} [LinearOrder α] (score : ℚ × ℚ → α)
    (l : List (ℚ × ℚ)) : ∀ best : ℚ × ℚ,
      selectBest score best l ∈ best :: l ∧
      (∀ p ∈ best :: l, score p ≤ score (selectBest score best l)) ∧
      (∀ p ∈ best :: l, score p = score (selectBest score best l) →
        lexLe (selectBest score best l) p) := by
  induction l with
  | nil =>
    intro best
    refine ⟨List.mem_singleton.mpr rfl, ?_, ?_⟩
    · intro p hp
      rw [List.mem_singleton.mp hp]
      exact le_refl _
    · intro p hp _
      rw [List.mem_singleton.mp hp]
      exact lexLe_refl _
  | cons q rest ih =>
    intro best
    by_cases hc : score best < score q ∨ (score q = score best ∧ lexLt q best)
    · have hsel : selectBest score best (q :: rest) = selectBest score q rest := by
        show (if score best < score q ∨ (score q = score best ∧ lexLt q best) then
            selectBest score q rest
          else selectBest score best rest) = selectBest score q rest
        rw [if_pos hc]
      rw [hsel]
      obtain ⟨hmem, hge, htie⟩ := ih q
      refine ⟨List.mem_cons_of_mem best hmem, ?_, ?_⟩
      · intro p hp
        rcases List.mem_cons.mp hp with h | h
        · rw [h]
          rcases hc with hlt | ⟨heq, _⟩
          · exact le_of_lt (lt_of_lt_of_le hlt (hge q (List.mem_cons_self q rest)))
          · exact heq ▸ hge q (List.mem_cons_self q rest)
        · exact hge p h
      · intro p hp htiep
        rcases List.mem_cons.mp hp with h | h
        · rcases hc with hlt | ⟨heq, hlex⟩
          · exfalso
            have h1 : score q ≤ score (selectBest score q rest) :=
              hge q (List.mem_cons_self q rest)
            have h2 : score best = score (selectBest score q rest) := by
              rw [← h]
              exact htiep
            rw [h2] at hlt
            exact absurd (lt_of_lt_of_le hlt h1) (lt_irrefl _)
          · have hq_tie : score q = score (selectBest score q rest) := by
              rw [heq, ← h, htiep]
            have h1 := htie q (List.mem_cons_self q rest) hq_tie
            rw [h]
            exact lexLe_trans h1 (lexLt_le hlex)
        · exact htie p h htiep
    · have hsel : selectBest score best (q :: rest) = selectBest score best rest := by
        show (if score best < score q ∨ (score q = score best ∧ lexLt q best) then
            selectBest score q rest
          else selectBest score best rest) = selectBest score best rest
        rw [if_neg hc]
      rw [hsel]
      obtain ⟨hmem, hge, htie⟩ := ih best
      push_neg at hc
      obtain ⟨hscore_le, hnotlex⟩ := hc
      refine ⟨?_, ?_, ?_⟩
      · rcases List.mem_cons.mp hmem with h | h
        · rw [h]
          exact List.mem_cons_self best (q :: rest)
        · exact List.mem_cons_of_mem best (List.mem_cons_of_mem q h)
      · intro p hp
        rcases List.mem_cons.mp hp with h | h
        · exact h ▸ hge best (List.mem_cons_self best rest)
        · rcases List.mem_cons.mp h with h' | h'
          · rw [h']
            exact le_trans hscore_le (hge best (List.mem_cons_self best rest))
          · exact hge p (List.mem_cons_of_mem best h')
      · intro p hp htiep
        rcases List.mem_cons.mp hp with h | h
        · exact htie p (h ▸ List.mem_cons_self best rest) htiep
        · rcases List.mem_cons.mp h with h' | h'
          · have hbest_le : score best ≤ score (selectBest score best rest) :=
              hge best (List.mem_cons_self best rest)
            rw [h'] at htiep
            have hq_eq_best : score q = score best :=
              le_antisymm hscore_le (by rw [htiep]; exact hbest_le)
            have hbest_tie : score best = score (selectBest score best rest) := by
              rw [← hq_eq_best]
              exact htiep
            have h1 := htie best (List.mem_cons_self best rest) hbest_tie
            have h2 : lexLe best q := lexLe_of_not_lt (hnotlex hq_eq_best)
            rw [h']
            exact lexLe_trans h1 h2
          · exact htie p (List.mem_cons_of_mem best h') htiep

/-- The row-major Cartesian product of the two discount grids. -/
def pairsOf (evo_grid obs_grid : List ℚ) : List (ℚ × ℚ) :=
  evo_grid.flatMap (fun de => obs_grid.map (fun dobs => (de, dobs)))

/-- Membership in the Cartesian product is componentwise membership. -/
theorem mem_pairsOf {evo_grid obs_grid : List ℚ} {p : ℚ × ℚ} :
    p ∈ pairsOf evo_grid obs_grid ↔ p.1 ∈ evo_grid ∧ p.2 ∈ obs_grid := by
  unfold pairsOf
  simp only [List.mem_flatMap, List.mem_map]
  constructor
  · rintro ⟨de, hde, dobs, hdobs, rfl⟩
    exact ⟨hde, hdobs⟩
  · rintro ⟨h1, h2⟩
    exact ⟨p.1, h1, p.2, h2, rfl⟩

/-- Modelled from the spec: the grid-search result record (§4.5, §6): the full
`ll_sum` score matrix over the Cartesian product of grids, and the selected
best (evolution, observation) discount pair. -/
structure GridSearchOut where
  score_matrix : List (List ℝ)
  best_evo : Option ℚ
  best_obs : Option ℚ

/-- Modelled from the spec: the score of one grid cell — the forward-filter
accumulated log-likelihood `ll_sum` in discounted-evolution + discounted-V
mode, with the default prior inverse-gamma parameters `n0 = s0 = 1`
(§4.5, §6). -/
noncomputable def gridScore {n : ℕ} (G : Matrix (Fin n) (Fin n) ℚ)
    (data : List ((Fin n → ℚ) × Option ℚ)) (m0 : Fin n → ℚ)
    (C0 : Matrix (Fin n) (Fin n) ℚ) (p : ℚ × ℚ) : ℝ :=
  llSum (.discount p.2)
    (runFilter G (.discount p.1) (.discount p.2) ⟨m0, C0, 1, 1⟩ data)

/-- Modelled from the spec: `GridSearchDiscountFFBS(evo_grid, obs_grid, F, G,
Y, m0, C0)` runs a discounted forward filter for every pair of the two grids,
exposes the full score matrix, and selects the pair maximizing `ll_sum`, ties
broken by the smaller evolution then observation discount (§4.5, §6). -/
noncomputable def GridSearchDiscountFFBS {n : ℕ} (evo_grid obs_grid : List ℚ)
    (G : Matrix (Fin n) (Fin n) ℚ) (data : List ((Fin n → ℚ) × Option ℚ))
    (m0 : Fin n → ℚ) (C0 : Matrix (Fin n) (Fin n) ℚ) : GridSearchOut :=
  { score_matrix := evo_grid.map (fun de => obs_grid.map (fun dobs =>
      gridScore G data m0 C0 (de, dobs)))
    best_evo := match pairsOf evo_grid obs_grid with
      | [] => none
      | p :: rest => some (selectBest (gridScore G data m0 C0) p rest).1
    best_obs := match pairsOf evo_grid obs_grid with
      | [] => none
      | p :: rest => some (selectBest (gridScore G data m0 C0) p rest).2 }

/-- C2: for every pair of non-empty discount grids with values in `(0, 1]`
and every valid filter input, the grid search sets `best_evo, best_obs` to a
grid pair whose forward-filter `ll_sum` is greater than or equal to that of
every other pair — ties broken by the smaller evolution discount, then the
smaller observation discount — and exposes the full `ll_sum` score matrix. -/
theorem c2_grid_search_optimal {n : ℕ} (evo_grid obs_grid : List ℚ)
    (G : Matrix (Fin n) (Fin n) ℚ) (data : List ((Fin n → ℚ) × Option ℚ))
    (m0 : Fin n → ℚ) (C0 : Matrix (Fin n) (Fin n) ℚ)
    (he : evo_grid ≠ []) (ho : obs_grid ≠ [])
    (hev : ∀ d ∈ evo_grid, 0 < d ∧ d ≤ 1) (hov : ∀ d ∈ obs_grid, 0 < d ∧ d ≤ 1) :
    ∃ be bo,
      (GridSearchDiscountFFBS evo_grid obs_grid G data m0 C0).best_evo = some be ∧
      (GridSearchDiscountFFBS evo_grid obs_grid G data m0 C0).best_obs = some bo ∧
      be ∈ evo_grid ∧ bo ∈ obs_grid ∧
      (∀ de ∈ evo_grid, ∀ dobs ∈ obs_grid,
        gridScore G data m0 C0 (de, dobs) ≤ gridScore G data m0 C0 (be, bo)) ∧
      (∀ de ∈ evo_grid, ∀ dobs ∈ obs_grid,
        gridScore G data m0 C0 (de, dobs) = gridScore G data m0 C0 (be, bo) →
          lexLe (be, bo) (de, dobs)) ∧
      (GridSearchDiscountFFBS evo_grid obs_grid G data m0 C0).score_matrix
        = evo_grid.map (fun de => obs_grid.map (fun dobs =>
            gridScore G data m0 C0 (de, dobs))) := by
  rcases hpq : pairsOf evo_grid obs_grid with _ | ⟨p0, rest⟩
  · exfalso
    rcases List.exists_mem_of_ne_nil evo_grid he with ⟨de, hde⟩
    rcases List.exists_mem_of_ne_nil obs_grid ho with ⟨dobs, hdobs⟩
    have : (de, dobs) ∈ pairsOf evo_grid obs_grid := mem_pairsOf.mpr ⟨hde, hdobs⟩
    rw [hpq] at this
    cases this
  · set score := gridScore G data m0 C0 with hscore
    set sel := selectBest score p0 rest with hsel
    obtain ⟨hmem, hge, htie⟩ := selectBest_spec score rest p0
    rw [← hpq] at hmem hge htie
    have hbe : (GridSearchDiscountFFBS evo_grid obs_grid G data m0 C0).best_evo
        = some sel.1 := by
      show (match pairsOf evo_grid obs_grid with
        | [] => none
        | p :: rest => some (selectBest score p rest).1) = some sel.1
      rw [hpq]
    have hbo : (GridSearchDiscountFFBS evo_grid obs_grid G data m0 C0).best_obs
        = some sel.2 := by
      show (match pairsOf evo_grid obs_grid with
        | [] => none
        | p :: rest => some (selectBest score p rest).2) = some sel.2
      rw [hpq]
    have hsel_mem := mem_pairsOf.mp hmem
    refine ⟨sel.1, sel.2, hbe, hbo, hsel_mem.1, hsel_mem.2, ?_, ?_, rfl⟩
    · intro de hde dobs hdobs
      have hp : (de, dobs) ∈ pairsOf evo_grid obs_grid := mem_pairsOf.mpr ⟨hde, hdobs⟩
      have := hge (de, dobs) hp
      rw [Prod.mk.eta]
      exact this
    · intro de hde dobs hdobs heq
      have hp : (de, dobs) ∈ pairsOf evo_grid obs_grid := mem_pairsOf.mpr ⟨hde, hdobs⟩
      rw [Prod.mk.eta] at heq ⊢
      exact htie (de, dobs) hp heq

/-- Witness for C2 on concrete 2×2 grids and a one-step filter input. -/
theorem c2_witness :
    (([9 / 10, 99 / 100] : List ℚ) ≠ [] ∧ ([9 / 10, 99 / 100] : List ℚ) ≠ [] ∧
      (∀ d ∈ ([9 / 10, 99 / 100] : List ℚ), 0 < d ∧ d ≤ 1) ∧
      (∀ d ∈ ([9 / 10, 99 / 100] : List ℚ), 0 < d ∧ d ≤ 1)) ∧
    (∃ be bo,
      (GridSearchDiscountFFBS [9 / 10, 99 / 100] [9 / 10, 99 / 100]
          (1 : Matrix (Fin 1) (Fin 1) ℚ) [((fun _ => 1 : Fin 1 → ℚ), some (0 : ℚ))]
          (fun _ => 0) 1).best_evo = some be ∧
      (GridSearchDiscountFFBS [9 / 10, 99 / 100] [9 / 10, 99 / 100]
          (1 : Matrix (Fin 1) (Fin 1) ℚ) [((fun _ => 1 : Fin 1 → ℚ), some (0 : ℚ))]
          (fun _ => 0) 1).best_obs = some bo ∧
      be ∈ ([9 / 10, 99 / 100] : List ℚ) ∧ bo ∈ ([9 / 10, 99 / 100] : List ℚ) ∧
      (∀ de ∈ ([9 / 10, 99 / 100] : List ℚ), ∀ dobs ∈ ([9 / 10, 99 / 100] : List ℚ),
        gridScore (1 : Matrix (Fin 1) (Fin 1) ℚ)
            [((fun _ => 1 : Fin 1 → ℚ), some (0 : ℚ))] (fun _ => 0) 1 (de, dobs)
          ≤ gridScore (1 : Matrix (Fin 1) (Fin 1) ℚ)
            [((fun _ => 1 : Fin 1 → ℚ), some (0 : ℚ))] (fun _ => 0) 1 (be, bo)) ∧
      (∀ de ∈ ([9 / 10, 99 / 100] : List ℚ), ∀ dobs ∈ ([9 / 10, 99 / 100] : List ℚ),
        gridScore (1 : Matrix (Fin 1) (Fin 1) ℚ)
            [((fun _ => 1 : Fin 1 → ℚ), some (0 : ℚ))] (fun _ => 0) 1 (de, dobs)
          = gridScore (1 : Matrix (Fin 1) (Fin 1) ℚ)
            [((fun _ => 1 : Fin 1 → ℚ), some (0 : ℚ))] (fun _ => 0) 1 (be, bo) →
          lexLe (be, bo) (de, dobs)) ∧
      (GridSearchDiscountFFBS [9 / 10, 99 / 100] [9 / 10, 99 / 100]
          (1 : Matrix (Fin 1) (Fin 1) ℚ) [((fun _ => 1 : Fin 1 → ℚ), some (0 : ℚ))]
          (fun _ => 0) 1).score_matrix
        = ([9 / 10, 99 / 100] : List ℚ).map (fun de =>
            ([9 / 10, 99 / 100] : List ℚ).map (fun dobs =>
              gridScore (1 : Matrix (Fin 1) (Fin 1) ℚ)
                [((fun _ => 1 : Fin 1 → ℚ), some (0 : ℚ))] (fun _ => 0) 1 (de, dobs)))) := by
  have hgrid : ∀ d ∈ ([9 / 10, 99 / 100] : List ℚ), 0 < d ∧ d ≤ 1 := by
    intro d hd
    rcases List.mem_cons.mp hd with rfl | hd'
    · norm_num
    · rcases List.mem_singleton.mp hd' with rfl
      norm_num
  refine ⟨⟨List.cons_ne_nil _ _, List.cons_ne_nil _ _, hgrid, hgrid⟩, ?_⟩
  exact c2_grid_search_optimal [9 / 10, 99 / 100] [9 / 10, 99 / 100]
    (1 : Matrix (Fin 1) (Fin 1) ℚ) [((fun _ => 1 : Fin 1 → ℚ), some (0 : ℚ))]
    (fun _ => 0) 1 (List.cons_ne_nil _ _) (List.cons_ne_nil _ _) hgrid hgrid

/-! ## C7: the trivial 1-D identity filter and its log-likelihood range -/

/-- `log 8 = 3 log 2`. -/
theorem log_eight : Real.log 8 = 3 * Real.log 2 := by
  rw [show (8 : ℝ) = 2 ^ 3 by norm_num, Real.log_pow]
  push_cast
  ring

/-- Lower bound on the logarithm: `log r ≥ 3 log 2 + (1 − 8/r)`. -/
theorem log_ge_three_log_two (r : ℝ) (hr : 0 < r) :
    3 * Real.log 2 + (1 - 8 / r) ≤ Real.log r := by
  have hdiv : Real.log (r / 8) = Real.log r - Real.log 8 :=
    Real.log_div (ne_of_gt hr) (by norm_num)
  have hinv : (r / 8)⁻¹ = 8 / r := by
    rw [inv_div]
  have h2 : 1 - 8 / r ≤ Real.log (r / 8) := by
    have h3 := Real.log_le_sub_one_of_pos (show (0 : ℝ) < (r / 8)⁻¹ by positivity)
    rw [Real.log_inv, hinv] at h3
    linarith
  rw [hdiv, log_eight] at h2
  linarith

/-- Upper bound on the logarithm: `log q ≤ 3 log 2 + (q/8 − 1)`. -/
theorem log_le_three_log_two (q : ℝ) (hq : 0 < q) :
    Real.log q ≤ 3 * Real.log 2 + (q / 8 - 1) := by
  have hdiv : Real.log (q / 8) = Real.log q - Real.log 8 :=
    Real.log_div (ne_of_gt hq) (by norm_num)
  have h2 : Real.log (q / 8) ≤ q / 8 - 1 :=
    Real.log_le_sub_one_of_pos (by positivity)
  rw [hdiv, log_eight] at h2
  linarith

/-- A Gaussian per-step log-likelihood is at most
`−(1/2)(3 log 2 + 1 − 8/r)` for any rational `0 < r ≤ 2πQ`. -/
theorem gaussLL_upper (e Q r : ℚ) (hQ : (0 : ℚ) < Q) (hr : (0 : ℚ) < r)
    (hrle : (r : ℝ) ≤ 2 * Real.pi * (Q : ℝ)) :
    gaussLL e Q ≤ -(1 / 2) * (3 * Real.log 2 + (1 - 8 / (r : ℝ))) := by
  unfold gaussLL
  have hrR : (0 : ℝ) < (r : ℝ) := by exact_mod_cast hr
  have hQR : (0 : ℝ) < (Q : ℝ) := by exact_mod_cast hQ
  have hmono : Real.log (r : ℝ) ≤ Real.log (2 * Real.pi * (Q : ℝ)) :=
    Real.log_le_log hrR hrle
  have hlow := log_ge_three_log_two (r : ℝ) hrR
  have he2 : 0 ≤ (e : ℝ) ^ 2 / (2 * (Q : ℝ)) := by positivity
  nlinarith [hmono, hlow, he2]

/-- A Gaussian per-step log-likelihood is at least
`−(1/2)(3 log 2 + q/8 − 1) − b²/(2Q)` for any rational `q ≥ 2πQ` and
innovation bound `|e| ≤ b`. -/
theorem gaussLL_lower (e Q q b : ℚ) (hQ : (0 : ℚ) < Q)
    (hqge : 2 * Real.pi * (Q : ℝ) ≤ (q : ℝ)) (hb : |e| ≤ b) :
    -(1 / 2) * (3 * Real.log 2 + ((q : ℝ) / 8 - 1)) - (b : ℝ) ^ 2 / (2 * (Q : ℝ))
      ≤ gaussLL e Q := by
  unfold gaussLL
  have hQR : (0 : ℝ) < (Q : ℝ) := by exact_mod_cast hQ
  have hpiQ : (0 : ℝ) < 2 * Real.pi * (Q : ℝ) := by
    have := Real.pi_pos
    positivity
  have hmono : Real.log (2 * Real.pi * (Q : ℝ)) ≤ Real.log (q : ℝ) :=
    Real.log_le_log hpiQ hqge
  have hup := log_le_three_log_two (q : ℝ) (lt_of_lt_of_le hpiQ hqge)
  have he2 : (e : ℝ) ^ 2 ≤ (b : ℝ) ^ 2 := by
    have habs : |(e : ℝ)| ≤ (b : ℝ) := by
      rw [show |(e : ℝ)| = ((|e| : ℚ) : ℝ) by push_cast; rfl]
      exact_mod_cast hb
    calc (e : ℝ) ^ 2 = |(e : ℝ)| ^ 2 := (sq_abs _).symm
      _ ≤ (b : ℝ) ^ 2 := by
        have h0 : (0 : ℝ) ≤ |(e : ℝ)| := abs_nonneg _
        nlinarith [habs, h0]
  have hdiv : (e : ℝ) ^ 2 / (2 * (Q : ℝ)) ≤ (b : ℝ) ^ 2 / (2 * (Q : ℝ)) := by
    have h2Q : (0 : ℝ) < 2 * (Q : ℝ) := by positivity
    gcongr
  nlinarith [hmono, hup, hdiv]

/-- Scalar form of one step of the concrete 1-D filter of the trivial
identity scenario (`G = [1]`, `F_t = [1]`, `δ_evo = 0.99`, known `V = 1`):
posterior mean and variance after assimilating `y` from state `(m, c)`. -/
def sstep (m c y : ℚ) : ℚ × ℚ :=
  (m + (y - m) * ((100 / 99 * c + 1)⁻¹ * (100 / 99 * c)),
    100 / 99 * c - (100 / 99 * c + 1) * ((100 / 99 * c + 1)⁻¹ * (100 / 99 * c)) ^ 2)

/-- The `(e_t, Q_t, Y_t)` trace of the scalar filter. -/
def strace : ℚ → ℚ → List ℚ → List ((ℚ × ℚ) × Option ℚ)
  | _, _, [] => []
  | m, c, y :: rest =>
      ((y - m, 100 / 99 * c + 1), some y)
        :: strace (sstep m c y).1 (sstep m c y).2 rest

/-- One step of the concrete 1-D filter, in closed scalar form. -/
theorem step_c7 (m c nn ss yv : ℚ) :
    step (1 : Matrix (Fin 1) (Fin 1) ℚ) (EvoMode.discount (99 / 100)) (ObsMode.known 1)
      ⟨fun _ => m, Matrix.of fun _ _ => c, nn, ss⟩ (fun _ => 1) (some yv)
    = { a := fun _ => m
        R := Matrix.of fun _ _ => 100 / 99 * c
        f := m
        Q := 100 / 99 * c + 1
        e := yv - m
        A := fun _ => (100 / 99 * c + 1)⁻¹ * (100 / 99 * c)
        m := fun _ => m + (yv - m) * ((100 / 99 * c + 1)⁻¹ * (100 / 99 * c))
        C := Matrix.of fun _ _ =>
          100 / 99 * c - (100 / 99 * c + 1) * ((100 / 99 * c + 1)⁻¹ * (100 / 99 * c)) ^ 2
        nstar := nn
        nn := nn
        ss := ss
        y := some yv } := by
  have hprior : priorR (1 : Matrix (Fin 1) (Fin 1) ℚ) (EvoMode.discount (99 / 100))
      (Matrix.of fun _ _ => c) = Matrix.of fun _ _ => 100 / 99 * c := by
    show symPart ((99 / 100 : ℚ)⁻¹ • ((1 : Matrix (Fin 1) (Fin 1) ℚ)
        * (Matrix.of fun _ _ => c) * (1 : Matrix (Fin 1) (Fin 1) ℚ)ᵀ)) = _
    rw [Matrix.transpose_one, Matrix.one_mul, Matrix.mul_one]
    unfold symPart
    ext i j
    simp only [Matrix.smul_apply, Matrix.add_apply, Matrix.transpose_apply, Matrix.of_apply,
      smul_eq_mul]
    norm_num
    ring
  have hmulvec : (Matrix.of fun _ _ => (100 / 99 * c : ℚ)
        : Matrix (Fin 1) (Fin 1) ℚ).mulVec (fun _ => 1)
      = fun _ : Fin 1 => 100 / 99 * c := by
    funext i
    simp [Matrix.mulVec, dotProduct, Fin.sum_univ_one]
  have hdotm : (fun _ : Fin 1 => (1 : ℚ)) ⬝ᵥ (fun _ => m) = m := by
    simp [dotProduct, Fin.sum_univ_one]
  have hQ : stepQ (1 : Matrix (Fin 1) (Fin 1) ℚ) (EvoMode.discount (99 / 100))
      (ObsMode.known 1) ⟨fun _ => m, Matrix.of fun _ _ => c, nn, ss⟩ (fun _ => 1)
      = 100 / 99 * c + 1 := by
    unfold stepQ
    show (fun _ : Fin 1 => (1 : ℚ)) ⬝ᵥ (priorR (1 : Matrix (Fin 1) (Fin 1) ℚ)
        (EvoMode.discount (99 / 100)) (Matrix.of fun _ _ => c)).mulVec (fun _ => 1) + 1 = _
    rw [hprior, hmulvec]
    simp [dotProduct, Fin.sum_univ_one]
  have hA : stepA (1 : Matrix (Fin 1) (Fin 1) ℚ) (EvoMode.discount (99 / 100))
      (ObsMode.known 1) ⟨fun _ => m, Matrix.of fun _ _ => c, nn, ss⟩ (fun _ => 1)
      = fun _ : Fin 1 => (100 / 99 * c + 1)⁻¹ * (100 / 99 * c) := by
    unfold stepA
    rw [hQ]
    show ((100 / 99 * c + 1 : ℚ))⁻¹ • (priorR (1 : Matrix (Fin 1) (Fin 1) ℚ)
        (EvoMode.discount (99 / 100)) (Matrix.of fun _ _ => c)).mulVec (fun _ => 1) = _
    rw [hprior, hmulvec]
    funext i
    simp
  have hone : (1 : Matrix (Fin 1) (Fin 1) ℚ).mulVec (fun _ => m) = fun _ : Fin 1 => m := by
    rw [Matrix.one_mulVec]
  show ({ a := (1 : Matrix (Fin 1) (Fin 1) ℚ).mulVec (fun _ => m)
          R := priorR 1 (EvoMode.discount (99 / 100)) (Matrix.of fun _ _ => c)
          f := (fun _ : Fin 1 => (1 : ℚ)) ⬝ᵥ (1 : Matrix (Fin 1) (Fin 1) ℚ).mulVec (fun _ => m)
          Q := stepQ 1 (EvoMode.discount (99 / 100)) (ObsMode.known 1)
            ⟨fun _ => m, Matrix.of fun _ _ => c, nn, ss⟩ (fun _ => 1)
          e := yv - (fun _ : Fin 1 => (1 : ℚ)) ⬝ᵥ (1 : Matrix (Fin 1) (Fin 1) ℚ).mulVec
            (fun _ => m)
          A := stepA 1 (EvoMode.discount (99 / 100)) (ObsMode.known 1)
            ⟨fun _ => m, Matrix.of fun _ _ => c, nn, ss⟩ (fun _ => 1)
          m := (1 : Matrix (Fin 1) (Fin 1) ℚ).mulVec (fun _ => m)
            + (yv - (fun _ : Fin 1 => (1 : ℚ)) ⬝ᵥ (1 : Matrix (Fin 1) (Fin 1) ℚ).mulVec
              (fun _ => m)) • stepA 1 (EvoMode.discount (99 / 100)) (ObsMode.known 1)
              ⟨fun _ => m, Matrix.of fun _ _ => c, nn, ss⟩ (fun _ => 1)
          C := symPart (priorR 1 (EvoMode.discount (99 / 100)) (Matrix.of fun _ _ => c)
            - stepQ 1 (EvoMode.discount (99 / 100)) (ObsMode.known 1)
              ⟨fun _ => m, Matrix.of fun _ _ => c, nn, ss⟩ (fun _ => 1)
              • Matrix.vecMulVec (stepA 1 (EvoMode.discount (99 / 100)) (ObsMode.known 1)
                ⟨fun _ => m, Matrix.of fun _ _ => c, nn, ss⟩ (fun _ => 1))
                (stepA 1 (EvoMode.discount (99 / 100)) (ObsMode.known 1)
                  ⟨fun _ => m, Matrix.of fun _ _ => c, nn, ss⟩ (fun _ => 1)))
          nstar := stepNstar (ObsMode.known 1) nn
          nn := nn
          ss := ss
          y := some yv } : StepRec 1) = _
  rw [hone, hdotm, hprior, hQ, hA]
  have hC : symPart ((Matrix.of fun _ _ => (100 / 99 * c : ℚ))
      - (100 / 99 * c + 1) • Matrix.vecMulVec
          (fun _ : Fin 1 => (100 / 99 * c + 1)⁻¹ * (100 / 99 * c))
          (fun _ : Fin 1 => (100 / 99 * c + 1)⁻¹ * (100 / 99 * c)))
      = Matrix.of fun _ _ =>
          100 / 99 * c - (100 / 99 * c + 1) * ((100 / 99 * c + 1)⁻¹ * (100 / 99 * c)) ^ 2 := by
    unfold symPart
    ext i j
    simp only [Matrix.smul_apply, Matrix.add_apply, Matrix.transpose_apply, Matrix.sub_apply,
      Matrix.of_apply, Matrix.vecMulVec_apply, smul_eq_mul]
    ring
  rw [hC]
  ext <;> simp [stepNstar]

/-- The concrete 1-D filter's `(e, Q, Y)` trace equals the scalar trace. -/
theorem runFilter_c7 (nn ss : ℚ) : ∀ (ys : List ℚ) (m c : ℚ),
    (runFilter (1 : Matrix (Fin 1) (Fin 1) ℚ) (EvoMode.discount (99 / 100))
        (ObsMode.known 1) ⟨fun _ => m, Matrix.of fun _ _ => c, nn, ss⟩
        (ys.map (fun y => ((fun _ => (1 : ℚ) : Fin 1 → ℚ), some y)))).map
      (fun r => ((r.e, r.Q), r.y))
    = strace m c ys
  | [], m, c => rfl
  | y :: rest, m, c => by
    show ((step (1 : Matrix (Fin 1) (Fin 1) ℚ) (EvoMode.discount (99 / 100))
          (ObsMode.known 1) ⟨fun _ => m, Matrix.of fun _ _ => c, nn, ss⟩
          (fun _ => 1) (some y))
        :: runFilter 1 (EvoMode.discount (99 / 100)) (ObsMode.known 1)
          (stateOf (step 1 (EvoMode.discount (99 / 100)) (ObsMode.known 1)
            ⟨fun _ => m, Matrix.of fun _ _ => c, nn, ss⟩ (fun _ => 1) (some y)))
          (rest.map (fun y => ((fun _ => (1 : ℚ) : Fin 1 → ℚ), some y)))).map
        (fun r => ((r.e, r.Q), r.y))
      = ((y - m, 100 / 99 * c + 1), some y)
        :: strace (sstep m c y).1 (sstep m c y).2 rest
    rw [step_c7, List.map_cons]
    have hstate : stateOf
        ({ a := (fun _ => m), R := Matrix.of (fun _ _ => 100 / 99 * c),
           f := m, Q := 100 / 99 * c + 1, e := y - m,
           A := (fun _ => (100 / 99 * c + 1)⁻¹ * (100 / 99 * c)),
           m := (fun _ => m + (y - m) * ((100 / 99 * c + 1)⁻¹ * (100 / 99 * c))),
           C := Matrix.of (fun _ _ =>
             100 / 99 * c - (100 / 99 * c + 1) * ((100 / 99 * c + 1)⁻¹ * (100 / 99 * c)) ^ 2),
           nstar := nn, nn := nn, ss := ss, y := some y } : StepRec 1)
        = ⟨fun _ => (sstep m c y).1, Matrix.of fun _ _ => (sstep m c y).2, nn, ss⟩ := rfl
    rw [hstate, runFilter_c7 nn ss rest (sstep m c y).1 (sstep m c y).2]

/-- `ll_sum` of a known-V record list is determined by its `(e, Q, Y)` trace,
with every observed step contributing a Gaussian term. -/
theorem llSum_known_of_trace (V : ℚ) :
    ∀ (recs : List (StepRec 1)) (tr : List ((ℚ × ℚ) × Option ℚ)),
      recs.map (fun r => ((r.e, r.Q), r.y)) = tr →
      (∀ p ∈ tr, p.2.isSome = true) →
      llSum (.known V) recs = (tr.map (fun p => gaussLL p.1.1 p.1.2)).sum
  | [], tr, htr, hsome => by
    rw [← htr]
    rfl
  | r :: rest, tr, htr, hsome => by
    rw [← htr] at hsome ⊢
    rw [List.map_cons, List.map_cons, List.sum_cons]
    have hsome_r : r.y.isSome = true := hsome _ (List.mem_cons_self _ _)
    obtain ⟨yv, hyv⟩ := Option.isSome_iff_exists.mp hsome_r
    have hrec : recLL (.known V) r = gaussLL r.e r.Q := by
      unfold recLL
      rw [hyv]
    have hrest := llSum_known_of_trace V rest (rest.map (fun r => ((r.e, r.Q), r.y))) rfl
      (fun p hp => hsome p (List.mem_cons_of_mem _ hp))
    show recLL (.known V) r + llSum (.known V) rest = _
    rw [hrec, hrest]

/-- A Gaussian per-step log-likelihood never exceeds its quadratic part when
`Q ≥ 1` (the log-normalization term is then nonpositive). -/
theorem gaussLL_le_quad (e Q : ℚ) (hQ : (1 : ℚ) ≤ Q) :
    gaussLL e Q ≤ -(e : ℝ) ^ 2 / (2 * (Q : ℝ)) := by
  unfold gaussLL
  have hQR : (1 : ℝ) ≤ (Q : ℝ) := by exact_mod_cast hQ
  have h2piQ : (1 : ℝ) ≤ 2 * Real.pi * (Q : ℝ) := by nlinarith [Real.pi_gt_three]
  have hlog : 0 ≤ Real.log (2 * Real.pi * (Q : ℝ)) := Real.log_nonneg h2piQ
  have hdiv : -(e : ℝ) ^ 2 / (2 * (Q : ℝ)) = -((e : ℝ) ^ 2 / (2 * (Q : ℝ))) := by ring
  rw [hdiv]
  linarith

/-- A Gaussian per-step log-likelihood is nonpositive when `Q ≥ 1`. -/
theorem gaussLL_nonpos (e Q : ℚ) (hQ : (1 : ℚ) ≤ Q) : gaussLL e Q ≤ 0 := by
  have h := gaussLL_le_quad e Q hQ
  have hQR : (0 : ℝ) < (Q : ℝ) := by
    have : (0 : ℚ) < Q := lt_of_lt_of_le one_pos hQ
    exact_mod_cast this
  have h2 : 0 ≤ (e : ℝ) ^ 2 / (2 * (Q : ℝ)) := by positivity
  have hdiv : -(e : ℝ) ^ 2 / (2 * (Q : ℝ)) = -((e : ℝ) ^ 2 / (2 * (Q : ℝ))) := by ring
  rw [hdiv] at h
  linarith

/-- One affine filter update keeps the posterior mean bounded. -/
theorem step_m_bound (m y A B : ℚ) (hm : |m| ≤ B) (hy : |y| ≤ 1) (hA : 0 ≤ A) :
    |m + (y - m) * A| ≤ B + (1 + B) * A := by
  have h1 : |m + (y - m) * A| ≤ |m| + |y - m| * A := by
    calc |m + (y - m) * A| ≤ |m| + |(y - m) * A| := abs_add _ _
      _ = |m| + |y - m| * A := by rw [abs_mul, abs_of_nonneg hA]
  have h2 : |y - m| ≤ 1 + B := by
    calc |y - m| = |y + -m| := by rw [sub_eq_add_neg]
      _ ≤ |y| + |-m| := abs_add _ _
      _ = |y| + |m| := by rw [abs_neg]
      _ ≤ 1 + B := add_le_add hy hm
  nlinarith [abs_nonneg (y - m), hA]

/-- Triangle bound for the innovation. -/
theorem innovation_bound (y m B : ℚ) (hy : |y| ≤ 1) (hm : |m| ≤ B) :
    |y - m| ≤ 1 + B := by
  calc |y - m| = |y + -m| := by rw [sub_eq_add_neg]
    _ ≤ |y| + |-m| := abs_add _ _
    _ = |y| + |m| := by rw [abs_neg]
    _ ≤ 1 + B := add_le_add hy hm

/-- C7 counterexample: the scenario's filter (`T = 4`, `F = G = [1]`,
`m0 = [0]`, `C0 = [1]`, known `V = 1`, default `δ_evo = 0.99`) evaluated at
the observation vector `(10, 10, 10, 10)` — a possible draw from `N(0,1)` —
has `ll_sum < −10`, refuting the claim that every draw yields
`ll_sum ∈ (−10, −4)`. -/
theorem c7_counterexample :
    llSum (.known 1) (runFilter (1 : Matrix (Fin 1) (Fin 1) ℚ)
        (EvoMode.discount (99 / 100)) (ObsMode.known 1)
        ⟨fun _ => 0, Matrix.of fun _ _ => 1, 1, 1⟩
        (([10, 10, 10, 10] : List ℚ).map
          (fun y => ((fun _ => (1 : ℚ) : Fin 1 → ℚ), some y)))) < -10 := by
  have htr := runFilter_c7 1 1 [10, 10, 10, 10] 0 1
  have hsome : ∀ p ∈ strace 0 1 [10, 10, 10, 10], p.2.isSome = true := by
    intro p hp
    simp only [strace, List.mem_cons, List.not_mem_nil, or_false] at hp
    rcases hp with rfl | rfl | rfl | rfl <;> rfl
  have hll := llSum_known_of_trace 1 _ _ htr hsome
  rw [hll]
  simp only [strace, List.map_cons, List.map_nil, List.sum_cons, List.sum_nil]
  have hc1 : (sstep 0 1 10).2 = 100 / 199 := by norm_num [sstep]
  have hc2 : (sstep (sstep 0 1 10).1 (sstep 0 1 10).2 10).2 = 10000 / 29701 := by
    norm_num [sstep]
  have hc3 : (sstep (sstep (sstep 0 1 10).1 (sstep 0 1 10).2 10).1
      (sstep (sstep 0 1 10).1 (sstep 0 1 10).2 10).2 10).2 = 1000000 / 3940399 := by
    norm_num [sstep]
  have hQ1 : (100 / 99 * 1 + 1 : ℚ) = 199 / 99 := by norm_num
  have h1 : gaussLL (10 - 0) (100 / 99 * 1 + 1) ≤ -(((10 - 0 : ℚ)) : ℝ) ^ 2
      / (2 * (((100 / 99 * 1 + 1 : ℚ)) : ℝ)) :=
    gaussLL_le_quad _ _ (by norm_num)
  have h2 : gaussLL (10 - (sstep 0 1 10).1) (100 / 99 * (sstep 0 1 10).2 + 1) ≤ 0 :=
    gaussLL_nonpos _ _ (by rw [hc1]; norm_num)
  have h3 : gaussLL (10 - (sstep (sstep 0 1 10).1 (sstep 0 1 10).2 10).1)
      (100 / 99 * (sstep (sstep 0 1 10).1 (sstep 0 1 10).2 10).2 + 1) ≤ 0 :=
    gaussLL_nonpos _ _ (by rw [hc2]; norm_num)
  have h4 : gaussLL (10 - (sstep (sstep (sstep 0 1 10).1 (sstep 0 1 10).2 10).1
        (sstep (sstep 0 1 10).1 (sstep 0 1 10).2 10).2 10).1)
      (100 / 99 * (sstep (sstep (sstep 0 1 10).1 (sstep 0 1 10).2 10).1
        (sstep (sstep 0 1 10).1 (sstep 0 1 10).2 10).2 10).2 + 1) ≤ 0 :=
    gaussLL_nonpos _ _ (by rw [hc3]; norm_num)
  have hquad : -(((10 - 0 : ℚ)) : ℝ) ^ 2 / (2 * (((100 / 99 * 1 + 1 : ℚ)) : ℝ))
      < -10 := by
    push_cast
    norm_num
  linarith

set_option maxHeartbeats 2000000 in
/-- C7 (amended): for the scenario's filter (`T = 4`, `F = G = [1]`,
`m0 = [0]`, `C0 = [1]`, known `V = 1`, default `δ_evo = 0.99`) and every
observation vector with all entries in `[−1, 1]` (typical draws of `N(0,1)`),
the accumulated log-likelihood satisfies `−10 < ll_sum < −4`. -/
theorem c7_ll_sum_in_range (Y0 Y1 Y2 Y3 : ℚ)
    (h0 : |Y0| ≤ 1) (h1 : |Y1| ≤ 1) (h2 : |Y2| ≤ 1) (h3 : |Y3| ≤ 1) :
    -10 < llSum (.known 1) (runFilter (1 : Matrix (Fin 1) (Fin 1) ℚ)
        (EvoMode.discount (99 / 100)) (ObsMode.known 1)
        ⟨fun _ => 0, Matrix.of fun _ _ => 1, 1, 1⟩
        (([Y0, Y1, Y2, Y3] : List ℚ).map
          (fun y => ((fun _ => (1 : ℚ) : Fin 1 → ℚ), some y)))) ∧
    llSum (.known 1) (runFilter (1 : Matrix (Fin 1) (Fin 1) ℚ)
        (EvoMode.discount (99 / 100)) (ObsMode.known 1)
        ⟨fun _ => 0, Matrix.of fun _ _ => 1, 1, 1⟩
        (([Y0, Y1, Y2, Y3] : List ℚ).map
          (fun y => ((fun _ => (1 : ℚ) : Fin 1 → ℚ), some y)))) < -4 := by
  have htr := runFilter_c7 1 1 [Y0, Y1, Y2, Y3] 0 1
  have hsome : ∀ p ∈ strace 0 1 [Y0, Y1, Y2, Y3], p.2.isSome = true := by
    intro p hp
    simp only [strace, List.mem_cons, List.not_mem_nil, or_false] at hp
    rcases hp with rfl | rfl | rfl | rfl <;> rfl
  have hll := llSum_known_of_trace 1 _ _ htr hsome
  rw [hll]
  simp only [strace, List.map_cons, List.map_nil, List.sum_cons, List.sum_nil]
  set s1 : ℚ × ℚ := sstep 0 1 Y0 with hs1
  set s2 : ℚ × ℚ := sstep s1.1 s1.2 Y1 with hs2
  set s3 : ℚ × ℚ := sstep s2.1 s2.2 Y2 with hs3
  have hc1 : s1.2 = 100 / 199 := by
    rw [hs1]
    norm_num [sstep]
  have hc2 : s2.2 = 10000 / 29701 := by
    rw [hs2, hs1]
    norm_num [sstep]
  have hc3 : s3.2 = 1000000 / 3940399 := by
    rw [hs3, hs2, hs1]
    norm_num [sstep]
  have hQ1 : (100 / 99 * 1 + 1 : ℚ) = 199 / 99 := by norm_num
  have hQ2 : (100 / 99 * s1.2 + 1 : ℚ) = 29701 / 19701 := by
    rw [hc1]
    norm_num
  have hQ3 : (100 / 99 * s2.2 + 1 : ℚ) = 3940399 / 2940399 := by
    rw [hc2]
    norm_num
  have hQ4 : (100 / 99 * s3.2 + 1 : ℚ) = 490099501 / 390099501 := by
    rw [hc3]
    norm_num
  rw [sub_zero, hQ1, hQ2, hQ3, hQ4]
  have hm1 : |s1.1| ≤ 503 / 1000 := by
    have hb := step_m_bound 0 Y0 ((100 / 99 * 1 + 1)⁻¹ * (100 / 99 * 1)) 0
      (by simp) h0 (by norm_num)
    calc |s1.1| = |0 + (Y0 - 0) * ((100 / 99 * 1 + 1)⁻¹ * (100 / 99 * 1))| := by
          rw [hs1]
          rfl
      _ ≤ 0 + (1 + 0) * ((100 / 99 * 1 + 1)⁻¹ * (100 / 99 * 1)) := hb
      _ ≤ 503 / 1000 := by norm_num
  have hm2 : |s2.1| ≤ 101 / 100 := by
    have hA : (0 : ℚ) ≤ (100 / 99 * s1.2 + 1)⁻¹ * (100 / 99 * s1.2) := by
      rw [hc1]
      norm_num
    have hb := step_m_bound s1.1 Y1 ((100 / 99 * s1.2 + 1)⁻¹ * (100 / 99 * s1.2))
      (503 / 1000) hm1 h1 hA
    calc |s2.1|
        = |s1.1 + (Y1 - s1.1) * ((100 / 99 * s1.2 + 1)⁻¹ * (100 / 99 * s1.2))| := by
          rw [hs2]
          rfl
      _ ≤ 503 / 1000 + (1 + 503 / 1000) * ((100 / 99 * s1.2 + 1)⁻¹ * (100 / 99 * s1.2)) := hb
      _ ≤ 101 / 100 := by
          rw [hc1]
          norm_num
  have hm3 : |s3.1| ≤ 1521 / 1000 := by
    have hA : (0 : ℚ) ≤ (100 / 99 * s2.2 + 1)⁻¹ * (100 / 99 * s2.2) := by
      rw [hc2]
      norm_num
    have hb := step_m_bound s2.1 Y2 ((100 / 99 * s2.2 + 1)⁻¹ * (100 / 99 * s2.2))
      (101 / 100) hm2 h2 hA
    calc |s3.1|
        = |s2.1 + (Y2 - s2.1) * ((100 / 99 * s2.2 + 1)⁻¹ * (100 / 99 * s2.2))| := by
          rw [hs3]
          rfl
      _ ≤ 101 / 100 + (1 + 101 / 100) * ((100 / 99 * s2.2 + 1)⁻¹ * (100 / 99 * s2.2)) := hb
      _ ≤ 1521 / 1000 := by
          rw [hc2]
          norm_num
  have hb2 : |Y1 - s1.1| ≤ 1503 / 1000 :=
    le_trans (innovation_bound Y1 s1.1 (503 / 1000) h1 hm1) (by norm_num)
  have hb3 : |Y2 - s2.1| ≤ 201 / 100 :=
    le_trans (innovation_bound Y2 s2.1 (101 / 100) h2 hm2) (by norm_num)
  have hb4 : |Y3 - s3.1| ≤ 2521 / 1000 :=
    le_trans (innovation_bound Y3 s3.1 (1521 / 1000) h3 hm3) (by norm_num)
  have hpi_lo : (3.141592 : ℝ) < Real.pi := Real.pi_gt_d6
  have hpi_hi : Real.pi < 3.141593 := Real.pi_lt_d6
  have hr1 : ((6283184 / 1000000 * (199 / 99) : ℚ) : ℝ)
      ≤ 2 * Real.pi * ((199 / 99 : ℚ) : ℝ) := by
    push_cast
    nlinarith [hpi_lo]
  have hq1 : 2 * Real.pi * ((199 / 99 : ℚ) : ℝ)
      ≤ ((6283186 / 1000000 * (199 / 99) : ℚ) : ℝ) := by
    push_cast
    nlinarith [hpi_hi]
  have hr2 : ((6283184 / 1000000 * (29701 / 19701) : ℚ) : ℝ)
      ≤ 2 * Real.pi * ((29701 / 19701 : ℚ) : ℝ) := by
    push_cast
    nlinarith [hpi_lo]
  have hq2 : 2 * Real.pi * ((29701 / 19701 : ℚ) : ℝ)
      ≤ ((6283186 / 1000000 * (29701 / 19701) : ℚ) : ℝ) := by
    push_cast
    nlinarith [hpi_hi]
  have hr3 : ((6283184 / 1000000 * (3940399 / 2940399) : ℚ) : ℝ)
      ≤ 2 * Real.pi * ((3940399 / 2940399 : ℚ) : ℝ) := by
    push_cast
    nlinarith [hpi_lo]
  have hq3 : 2 * Real.pi * ((3940399 / 2940399 : ℚ) : ℝ)
      ≤ ((6283186 / 1000000 * (3940399 / 2940399) : ℚ) : ℝ) := by
    push_cast
    nlinarith [hpi_hi]
  have hr4 : ((6283184 / 1000000 * (490099501 / 390099501) : ℚ) : ℝ)
      ≤ 2 * Real.pi * ((490099501 / 390099501 : ℚ) : ℝ) := by
    push_cast
    nlinarith [hpi_lo]
  have hq4 : 2 * Real.pi * ((490099501 / 390099501 : ℚ) : ℝ)
      ≤ ((6283186 / 1000000 * (490099501 / 390099501) : ℚ) : ℝ) := by
    push_cast
    nlinarith [hpi_hi]
  have hup1 := gaussLL_upper Y0 (199 / 99) (6283184 / 1000000 * (199 / 99))
    (by norm_num) (by norm_num) hr1
  have hup2 := gaussLL_upper (Y1 - s1.1) (29701 / 19701)
    (6283184 / 1000000 * (29701 / 19701)) (by norm_num) (by norm_num) hr2
  have hup3 := gaussLL_upper (Y2 - s2.1) (3940399 / 2940399)
    (6283184 / 1000000 * (3940399 / 2940399)) (by norm_num) (by norm_num) hr3
  have hup4 := gaussLL_upper (Y3 - s3.1) (490099501 / 390099501)
    (6283184 / 1000000 * (490099501 / 390099501)) (by norm_num) (by norm_num) hr4
  have hlo1 := gaussLL_lower Y0 (199 / 99) (6283186 / 1000000 * (199 / 99)) 1
    (by norm_num) hq1 h0
  have hlo2 := gaussLL_lower (Y1 - s1.1) (29701 / 19701)
    (6283186 / 1000000 * (29701 / 19701)) (1503 / 1000) (by norm_num) hq2 hb2
  have hlo3 := gaussLL_lower (Y2 - s2.1) (3940399 / 2940399)
    (6283186 / 1000000 * (3940399 / 2940399)) (201 / 100) (by norm_num) hq3 hb3
  have hlo4 := gaussLL_lower (Y3 - s3.1) (490099501 / 390099501)
    (6283186 / 1000000 * (490099501 / 390099501)) (2521 / 1000) (by norm_num) hq4 hb4
  push_cast at hup1 hup2 hup3 hup4 hlo1 hlo2 hlo3 hlo4
  norm_num at hup1 hup2 hup3 hup4 hlo1 hlo2 hlo3 hlo4
  constructor
  · have hlog2 := Real.log_two_lt_d9
    linarith [hlo1, hlo2, hlo3, hlo4, hlog2]
  · have hlog2 := Real.log_two_gt_d9
    linarith [hup1, hup2, hup3, hup4, hlog2]

/-- Witness for C7 at the all-zero observation vector. -/
theorem c7_witness :
    (|(0 : ℚ)| ≤ 1 ∧ |(0 : ℚ)| ≤ 1 ∧ |(0 : ℚ)| ≤ 1 ∧ |(0 : ℚ)| ≤ 1) ∧
    (-10 < llSum (.known 1) (runFilter (1 : Matrix (Fin 1) (Fin 1) ℚ)
        (EvoMode.discount (99 / 100)) (ObsMode.known 1)
        ⟨fun _ => 0, Matrix.of fun _ _ => 1, 1, 1⟩
        (([0, 0, 0, 0] : List ℚ).map
          (fun y => ((fun _ => (1 : ℚ) : Fin 1 → ℚ), some y)))) ∧
      llSum (.known 1) (runFilter (1 : Matrix (Fin 1) (Fin 1) ℚ)
        (EvoMode.discount (99 / 100)) (ObsMode.known 1)
        ⟨fun _ => 0, Matrix.of fun _ _ => 1, 1, 1⟩
        (([0, 0, 0, 0] : List ℚ).map
          (fun y => ((fun _ => (1 : ℚ) : Fin 1 → ℚ), some y)))) < -4) :=
  ⟨by norm_num,
    c7_ll_sum_in_range 0 0 0 0 (by norm_num) (by norm_num) (by norm_num) (by norm_num)⟩

end BF
